import Mathlib

/-!
Verification of the happy-number calculator (`HnCalculator.cpp`).

The C++ class is shallowly embedded: machine integers become `Nat` (all
intermediate values of the program are bounded by the original `uint64_t`
range on the inputs the claims quantify over, so no wrap-around occurs and
`Nat` is faithful), the digit loops become fuel-indexed structural
recursions (fuel `n` always suffices because `n / base < n` for
`2 ≤ base`), the `unordered_map` cache becomes an association list with
`emplace` = insert-if-absent, and the recursive `isHappy` becomes a
fuel-indexed function returning `none` when the fuel is exhausted, so that
termination of the C++ recursion is exactly the existence of sufficient
fuel.  A base below 2 is a precondition violation in the program (the C++
loops would not terminate); the embeddings return their neutral value in
that case and every theorem assumes `2 ≤ base` where the base matters.
-/

namespace Hn

/-- Configuration of an `HnCalculator` instance: the three constructor
parameters `cacheResults`, `skipPermutations` and `base`. -/
structure Config where
  cacheResults : Bool
  skipPermutations : Bool
  base : Nat

/-- Fuel-indexed body of `HnCalculator::sumOfDigitSquares`:
`return (n%base)*(n%base) + sumOfDigitSquares(n/base)` with `0 ↦ 0`. -/
def sumOfDigitSquaresGo (base : Nat) : Nat → Nat → Nat
  | 0, _ => 0
  | fuel + 1, n =>
    if n = 0 then 0
    else if base < 2 then 0
    else n % base * (n % base) + sumOfDigitSquaresGo base fuel (n / base)

/-- Sum of the squares of the base-`base` digits of `n`, as computed by
`HnCalculator::sumOfDigitSquares`. -/
def sumOfDigitSquares (base n : Nat) : Nat := sumOfDigitSquaresGo base n n

/-- Fuel-indexed body of `HnCalculator::areDigitsSorted`: scan the digits
from least significant to most significant, failing as soon as a digit
exceeds the previously seen (less significant) digit; `prev` starts at
`base`. -/
def areDigitsSortedGo (base : Nat) : Nat → Nat → Nat → Bool
  | 0, _, _ => true
  | fuel + 1, n, prev =>
    if n = 0 then true
    else if base < 2 then true
    else if prev < n % base then false
    else areDigitsSortedGo base fuel (n / base) (n % base)

/-- Whether the base-`base` digits of `n` are in ascending order when read
from most significant to least significant, as computed by
`HnCalculator::areDigitsSorted` (initial `prevDigit = base`). -/
def areDigitsSorted (base n : Nat) : Bool := areDigitsSortedGo base n n base

/-- Fuel-indexed histogram loop of `HnCalculator::sortDigits`: for every
nonzero digit `d` of `n` the bucket `digits[d-1]` is incremented; the digit
0 is skipped by the `if (n%base != 0)` guard.  The C++ allocates the bucket
array with `new char[base]` and never writes the buckets it does not
touch; the histogram is modelled as a function from bucket index to count,
entered with the all-zero function. -/
def histLoopGo (base : Nat) : Nat → Nat → (Nat → Nat) → (Nat → Nat)
  | 0, _, hist => hist
  | fuel + 1, n, hist =>
    if n = 0 then hist
    else if base < 2 then hist
    else
      histLoopGo base fuel (n / base)
        (if n % base = 0 then hist
         else fun j => if j = n % base - 1 then hist j + 1 else hist j)

/-- Inner emission loop of `HnCalculator::sortDigits`: append `count`
copies of the digit `d` at the least significant end of `r`
(`result *= base; result += digit;`). -/
def emitDigit (base d : Nat) : Nat → Nat → Nat
  | 0, r => r
  | count + 1, r => emitDigit base d count (r * base + d)

/-- Outer emission loop of `HnCalculator::sortDigits`: for each digit value
`digit = 1, …, base-1` in ascending order, emit `hist (digit-1)` copies of
it.  The loop runs for at most `base` iterations so fuel `base` is exact. -/
def emitLoopGo (base : Nat) (hist : Nat → Nat) : Nat → Nat → Nat → Nat
  | 0, _, r => r
  | fuel + 1, digit, r =>
    if digit < base then
      emitLoopGo base hist fuel (digit + 1) (emitDigit base digit (hist (digit - 1)) r)
    else r

/-- `HnCalculator::sortDigits`: histogram the nonzero digits of `n`, then
rebuild a number by emitting the digit values in ascending order (the
first emitted digit ends up most significant). -/
def sortDigits (base n : Nat) : Nat :=
  emitLoopGo base (histLoopGo base n n fun _ => 0) base 1 0

/-- Fuel-indexed extraction of the base-`base` digit list of `n`, least
significant digit first, by the data model's digit extraction
(`n mod base`, `n / base`).  Observer used to state digit-multiset claims;
it agrees with `Nat.digits` for `2 ≤ base`. -/
def digitsListGo (base : Nat) : Nat → Nat → List Nat
  | 0, _ => []
  | fuel + 1, n =>
    if n = 0 then []
    else if base < 2 then []
    else n % base :: digitsListGo base fuel (n / base)

/-- The base-`base` digit list of `n`, least significant digit first. -/
def digitsList (base n : Nat) : List Nat := digitsListGo base n n

/-- List of digits emitted by `emitLoopGo` (least significant digit first,
so the digits processed later come first).  Proof artifact relating
`sortDigits` to `Nat.ofDigits`. -/
def emitListGo (base : Nat) (hist : Nat → Nat) : Nat → Nat → List Nat
  | 0, _ => []
  | fuel + 1, digit =>
    if digit < base then
      emitListGo base hist fuel (digit + 1) ++ List.replicate (hist (digit - 1)) digit
    else []

/-- The digit list (least significant first) of `sortDigits base n`. -/
def sortedDigitsOf (base n : Nat) : List Nat :=
  emitListGo base (histLoopGo base n n fun _ => 0) base 1

/-! The classification engine: cache, `isHappy`, and its termination. -/

/-- The memoization cache: an association list from number to happy flag.
`std::unordered_map::find` becomes `List.lookup`; `emplace` inserts only
when the key is absent, which the list model mirrors by prepending only in
that case, so a present key is never overwritten. -/
abbrev Cache := List (Nat × Bool)

/-- Cache contents right after the `HnCalculator` constructor: the two
terminal facts `1 ↦ happy` and `4 ↦ unhappy` are seeded exactly when
`cacheResults` is set. -/
def initCache (cacheResults : Bool) : Cache :=
  if cacheResults then [(1, true), (4, false)] else []

/-- `HnCalculator::isCached`: a probe that always misses when caching is
disabled, and otherwise tests membership. -/
def isCached (cfg : Config) (cache : Cache) (n : Nat) : Bool :=
  if !cfg.cacheResults then false else (cache.lookup n).isSome

/-- `HnCalculator::newResult` without the console output, which the claims
do not concern: cache the result (`emplace`, insert-if-absent) when
`cacheResults` is enabled. -/
def newResult (cfg : Config) (cache : Cache) (n : Nat) (happy : Bool) : Cache :=
  if cfg.cacheResults then
    if (cache.lookup n).isSome then cache else (n, happy) :: cache
  else cache

/-- The iterate `isHappy` recurses on for a non-terminal number: the two
statements `childNumber = sumOfDigitSquares(n); if (skipPermutations)
childNumber = sortDigits(childNumber);`, with the skip flag and base taken
as plain arguments. -/
def childOfSB (skip : Bool) (base n : Nat) : Nat :=
  if skip then sortDigits base (sumOfDigitSquares base n)
  else sumOfDigitSquares base n

/-- The iterate of `isHappy` under a full configuration. -/
def childOf (cfg : Config) (n : Nat) : Nat :=
  childOfSB cfg.skipPermutations cfg.base n

/-- Fuel-indexed `HnCalculator::isHappy`.  The C++ recursion is unbounded;
the embedding returns `none` when the fuel runs out, so a C++ call
terminates exactly when some fuel yields `some`.  The result pairs the
returned boolean with the cache as updated by the call (via `newResult`). -/
def isHappyFuel (cfg : Config) : Nat → Cache → Nat → Option (Bool × Cache)
  | 0, _, _ => none
  | fuel + 1, cache, n =>
    if isCached cfg cache n then some ((cache.lookup n).getD false, cache)
    else if n = 1 then some (true, cache)
    else if n = 4 then some (false, cache)
    else
      match isHappyFuel cfg fuel cache (childOf cfg n) with
      | none => none
      | some (happy, cache2) => some (happy, newResult cfg cache2 n happy)

/-- Bounded reachability of a terminal value along the engine's own
iterate: fuel-indexed so that it can be decided on concrete inputs. -/
def reachesIn (skip : Bool) (base : Nat) : Nat → Nat → Bool
  | 0, n => n == 1 || n == 4
  | k + 1, n => n == 1 || n == 4 || reachesIn skip base k (childOfSB skip base n)

/-! Ground truth: iterating the plain digit-square sum, and the base-10
cycle that makes 4 a correct terminal for unhappiness. -/

/-- Iterate of the plain digit-square-sum map. -/
def iterS (base : Nat) : Nat → Nat → Nat
  | 0, n => n
  | k + 1, n => iterS base k (sumOfDigitSquares base n)

/-- Mathematical happiness: the iteration reaches 1. -/
def groundHappy (base n : Nat) : Prop := ∃ k, iterS base k n = 1

/-- The base-10 cycle of the digit-square-sum map that contains 4. -/
def unhappyCycle : List Nat := [4, 16, 37, 58, 89, 145, 42, 20]

/-- The result a cache-free engine run assigns to `n`. -/
def pureResult (skip : Bool) (base n : Nat) (b : Bool) : Prop :=
  ∃ fuel cache2, isHappyFuel ⟨false, skip, base⟩ fuel [] n = some (b, cache2)

/-- Every entry of the cache agrees with the cache-free engine on the same
skip flag and base. -/
def validCache (skip : Bool) (base : Nat) (cache : Cache) : Prop :=
  ∀ m v, cache.lookup m = some v → pureResult skip base m v

/-- A finite sequence of classification requests, each with its own fuel,
run against the shared cache; failed (fuel-exhausted) calls leave the
cache unchanged, like a C++ call that never returns. -/
def runCalls (cfg : Config) : List (Nat × Nat) → Cache → Cache
  | [], cache => cache
  | (fuel, n) :: rest, cache =>
    match isHappyFuel cfg fuel cache n with
    | none => runCalls cfg rest cache
    | some (_, cache2) => runCalls cfg rest cache2

/-! The cursor: `HnCalculator::getNextNumber` and repeated calls. -/

/-- The scan loop inside `getNextNumber`: starting at `i`, return the
first candidate that is not skipped
(`!skipPermutations || areDigitsSorted(i)`).  Fuel-indexed;
`base ^ (start + 1)` fuel always suffices because `base ^ (start+1) - 1`
has all digits equal to `base - 1` and is therefore never skipped. -/
def scanNextGo (base : Nat) (skip : Bool) : Nat → Nat → Option Nat
  | 0, _ => none
  | fuel + 1, i =>
    if !skip || areDigitsSorted base i then some i
    else scanNextGo base skip fuel (i + 1)

/-- Cursor state: the two private counters of `HnCalculator`, plus the log
of milestone boundaries announced so far (the program prints each boundary
to the console; the model records it). -/
structure CursorState where
  nextNumber : Nat
  lastMilestone : Nat
  milestoneLog : List Nat

/-- `HnCalculator::getNextNumber`: scan forward from `nextNumber` for the
first non-skipped number `i`, announce at most one milestone (exactly when
`i > lastMilestone + milestoneInc`, advancing `lastMilestone` by one
interval), set `nextNumber` to `i + 1` and return `i`. -/
def getNextNumber (base : Nat) (skip : Bool) (mi : Option Nat) (st : CursorState) :
    Nat × CursorState :=
  let i := (scanNextGo base skip (base ^ (st.nextNumber + 1)) st.nextNumber).getD 0
  match mi with
  | some m =>
    if st.lastMilestone + m < i then
      (i, ⟨i + 1, st.lastMilestone + m, st.milestoneLog ++ [st.lastMilestone + m]⟩)
    else (i, ⟨i + 1, st.lastMilestone, st.milestoneLog⟩)
  | none => (i, ⟨i + 1, st.lastMilestone, st.milestoneLog⟩)

/-- `calls` successive cursor pulls; returns the handed-out numbers in
order together with the final cursor state. -/
def runCursor (base : Nat) (skip : Bool) (mi : Option Nat) :
    Nat → CursorState → List Nat × CursorState
  | 0, st => ([], st)
  | k + 1, st =>
    let r := getNextNumber base skip mi st
    let rest := runCursor base skip mi k r.2
    (r.1 :: rest.1, rest.2)

/-- The initial cursor state: `nextNumber = 1`, `lastMilestone = 0`,
nothing announced. -/
def initCursor : CursorState := ⟨1, 0, []⟩

/-- The numbers in `[1, B)` whose digits pass `areDigitsSorted`. -/
def sortedUpTo (base B : Nat) : List Nat :=
  (List.range' 1 (B - 1)).filter fun j => areDigitsSorted base j

/-! The worker loop: `HnCalculator::threadLoop`. -/

/-- Fuel-indexed body of `threadLoop`: `n = 0; while (n < stopAt)
{ isHappy(n = getNextNumber()); }` — the loop condition is tested before
each iteration, and the body first pulls a number and classifies it, so
the first pulled number at or beyond `stopAt` is still classified.  The
classification does not influence which numbers are pulled, so the model
records the pulled (and therefore classified) numbers; fuel `stopAt + 2`
always suffices because each pull strictly increases the cursor. -/
def threadLoopGo (base : Nat) (skip : Bool) (mi : Option Nat) (stopAt : Nat) :
    Nat → Nat → CursorState → List Nat
  | 0, _, _ => []
  | fuel + 1, n, st =>
    if n < stopAt then
      (getNextNumber base skip mi st).1
        :: threadLoopGo base skip mi stopAt fuel (getNextNumber base skip mi st).1
             (getNextNumber base skip mi st).2
    else []

/-- The numbers pulled and classified by a single worker running
`threadLoop` against a fresh cursor. -/
def threadLoopRun (base : Nat) (skip : Bool) (mi : Option Nat) (stopAt : Nat) : List Nat :=
  threadLoopGo base skip mi stopAt (stopAt + 2) 0 initCursor

/-- The engine, started from the constructor cache, returns `b` for `n`
with some sufficient fuel: the observable result of `isHappy(n)` on a
fresh `HnCalculator`. -/
def engineReturns (c s : Bool) (base n : Nat) (b : Bool) : Prop :=
  ∃ fuel cache2, isHappyFuel ⟨c, s, base⟩ fuel (initCache c) n = some (b, cache2)

/-! Fuel invariance: each of the four digit loops is insensitive to the
exact fuel as long as the fuel is at least `n`, because the loop variable
is divided by `base ≥ 2` at every step. -/

theorem sumOfDigitSquaresGo_zero (base : Nat) (f : Nat) :
    sumOfDigitSquaresGo base f 0 = 0 := by
  cases f <;> simp [sumOfDigitSquaresGo]

theorem sumOfDigitSquaresGo_fuel (base : Nat) :
    ∀ n f, n ≤ f → sumOfDigitSquaresGo base f n = sumOfDigitSquares base n := by
  intro n
  induction n using Nat.strong_induction_on with
  | _ n ih =>
    intro f hf
    rcases Nat.eq_zero_or_pos n with hn | hn
    · subst hn
      simp [sumOfDigitSquares, sumOfDigitSquaresGo_zero]
    · obtain ⟨f, rfl⟩ : ∃ g, f = g + 1 := ⟨f - 1, by omega⟩
      obtain ⟨m, rfl⟩ : ∃ m, n = m + 1 := ⟨n - 1, by omega⟩
      by_cases hb : base < 2
      · simp [sumOfDigitSquares, sumOfDigitSquaresGo, hb]
      · have hdiv : (m + 1) / base < m + 1 := Nat.div_lt_self hn (by omega)
        have h1 := ih ((m + 1) / base) hdiv f (by omega)
        have h2 := ih ((m + 1) / base) hdiv m (by omega)
        simp only [sumOfDigitSquares, sumOfDigitSquaresGo, hb, if_false]
        rw [h1, h2]

theorem sumOfDigitSquares_eq (base n : Nat) (hb : 2 ≤ base) (hn : n ≠ 0) :
    sumOfDigitSquares base n
      = n % base * (n % base) + sumOfDigitSquares base (n / base) := by
  obtain ⟨m, rfl⟩ : ∃ m, n = m + 1 := ⟨n - 1, by omega⟩
  have hdiv : (m + 1) / base < m + 1 := Nat.div_lt_self (by omega) (by omega)
  conv_lhs => rw [sumOfDigitSquares]
  simp only [sumOfDigitSquaresGo, hn, if_false, Nat.not_lt.mpr hb, if_neg (by omega : ¬ base < 2)]
  rw [sumOfDigitSquaresGo_fuel base _ m (by omega)]

theorem areDigitsSortedGo_zero (base : Nat) (f p : Nat) :
    areDigitsSortedGo base f 0 p = true := by
  cases f <;> simp [areDigitsSortedGo]

theorem areDigitsSortedGo_fuel (base : Nat) :
    ∀ n f g p, n ≤ f → n ≤ g →
      areDigitsSortedGo base f n p = areDigitsSortedGo base g n p := by
  intro n
  induction n using Nat.strong_induction_on with
  | _ n ih =>
    intro f g p hf hg
    rcases Nat.eq_zero_or_pos n with hn | hn
    · subst hn
      simp [areDigitsSortedGo_zero]
    · obtain ⟨f, rfl⟩ : ∃ k, f = k + 1 := ⟨f - 1, by omega⟩
      obtain ⟨g, rfl⟩ : ∃ k, g = k + 1 := ⟨g - 1, by omega⟩
      obtain ⟨m, rfl⟩ : ∃ m, n = m + 1 := ⟨n - 1, by omega⟩
      by_cases hb : base < 2
      · simp [areDigitsSortedGo, hb]
      · have hdiv : (m + 1) / base < m + 1 := Nat.div_lt_self hn (by omega)
        simp only [areDigitsSortedGo, hb, if_false]
        rw [ih ((m + 1) / base) hdiv f g _ (by omega) (by omega)]

theorem areDigitsSorted_eq (base n : Nat) : ∀ p,
    areDigitsSortedGo base n n p
      = if n = 0 then true
        else if base < 2 then true
        else if p < n % base then false
        else areDigitsSortedGo base (n / base) (n / base) (n % base) := by
  intro p
  rcases Nat.eq_zero_or_pos n with hn | hn
  · subst hn; simp [areDigitsSortedGo_zero]
  · obtain ⟨m, rfl⟩ : ∃ m, n = m + 1 := ⟨n - 1, by omega⟩
    by_cases hb : base < 2
    · simp [areDigitsSortedGo, hb]
    · have hdiv : (m + 1) / base < m + 1 := Nat.div_lt_self hn (by omega)
      simp only [areDigitsSortedGo, hb, if_false, if_neg (by omega : ¬ m + 1 = 0)]
      rcases Nat.lt_or_ge p ((m + 1) % base) with h | h
      · simp [h]
      · rw [if_neg (by omega), if_neg (by omega)]
        exact areDigitsSortedGo_fuel base _ m _ _ (by omega) (by omega)

theorem digitsListGo_zero (base : Nat) (f : Nat) : digitsListGo base f 0 = [] := by
  cases f <;> simp [digitsListGo]

theorem digitsListGo_fuel (base : Nat) :
    ∀ n f, n ≤ f → digitsListGo base f n = digitsList base n := by
  intro n
  induction n using Nat.strong_induction_on with
  | _ n ih =>
    intro f hf
    rcases Nat.eq_zero_or_pos n with hn | hn
    · subst hn; simp [digitsList, digitsListGo_zero]
    · obtain ⟨f, rfl⟩ : ∃ k, f = k + 1 := ⟨f - 1, by omega⟩
      obtain ⟨m, rfl⟩ : ∃ m, n = m + 1 := ⟨n - 1, by omega⟩
      by_cases hb : base < 2
      · simp [digitsList, digitsListGo, hb]
      · have hdiv : (m + 1) / base < m + 1 := Nat.div_lt_self hn (by omega)
        simp only [digitsList, digitsListGo, hb, if_false]
        rw [ih ((m + 1) / base) hdiv f (by omega), ih ((m + 1) / base) hdiv m (by omega)]

theorem digitsList_eq_cons (base n : Nat) (hb : 2 ≤ base) (hn : n ≠ 0) :
    digitsList base n = n % base :: digitsList base (n / base) := by
  obtain ⟨m, rfl⟩ : ∃ m, n = m + 1 := ⟨n - 1, by omega⟩
  have hdiv : (m + 1) / base < m + 1 := Nat.div_lt_self (by omega) (by omega)
  conv_lhs => rw [digitsList]
  simp only [digitsListGo, hn, if_false, if_neg (by omega : ¬ base < 2)]
  rw [digitsListGo_fuel base _ m (by omega)]

theorem histLoopGo_zero (base : Nat) (f : Nat) (h : Nat → Nat) :
    histLoopGo base f 0 h = h := by
  cases f <;> simp [histLoopGo]

theorem histLoopGo_fuel (base : Nat) :
    ∀ n f g h, n ≤ f → n ≤ g → histLoopGo base f n h = histLoopGo base g n h := by
  intro n
  induction n using Nat.strong_induction_on with
  | _ n ih =>
    intro f g h hf hg
    rcases Nat.eq_zero_or_pos n with hn | hn
    · subst hn; simp [histLoopGo_zero]
    · obtain ⟨f, rfl⟩ : ∃ k, f = k + 1 := ⟨f - 1, by omega⟩
      obtain ⟨g, rfl⟩ : ∃ k, g = k + 1 := ⟨g - 1, by omega⟩
      obtain ⟨m, rfl⟩ : ∃ m, n = m + 1 := ⟨n - 1, by omega⟩
      by_cases hb : base < 2
      · simp [histLoopGo, hb]
      · have hdiv : (m + 1) / base < m + 1 := Nat.div_lt_self hn (by omega)
        simp only [histLoopGo, hb, if_false]
        rw [ih ((m + 1) / base) hdiv f g _ (by omega) (by omega)]

/-- The digit list of `n` agrees with Mathlib's `Nat.digits` for `2 ≤ base`. -/
theorem digitsList_eq_digits (base : Nat) (hb : 2 ≤ base) :
    ∀ n, digitsList base n = Nat.digits base n := by
  intro n
  induction n using Nat.strong_induction_on with
  | _ n ih =>
    rcases Nat.eq_zero_or_pos n with hn | hn
    · subst hn; simp [digitsList, digitsListGo_zero]
    · have hdiv : n / base < n := Nat.div_lt_self hn (by omega)
      rw [digitsList_eq_cons base n hb (by omega), ih _ hdiv,
        Nat.digits_def' (by omega : 1 < base) hn]

/-! Characterizations of the digit loops in terms of `Nat.digits`. -/

theorem sumOfDigitSquares_eq_digits_sum (base : Nat) (hb : 2 ≤ base) :
    ∀ n, sumOfDigitSquares base n = ((Nat.digits base n).map fun d => d * d).sum := by
  intro n
  induction n using Nat.strong_induction_on with
  | _ n ih =>
    rcases Nat.eq_zero_or_pos n with hn | hn
    · subst hn; simp [sumOfDigitSquares, sumOfDigitSquaresGo]
    · have hdiv : n / base < n := Nat.div_lt_self hn (by omega)
      rw [sumOfDigitSquares_eq base n hb (by omega), ih _ hdiv,
        Nat.digits_def' (by omega : 1 < base) hn]
      simp

theorem areDigitsSortedGo_iff_chain (base : Nat) (hb : 2 ≤ base) :
    ∀ n p, areDigitsSortedGo base n n p = true
      ↔ List.Chain (fun a b => b ≤ a) p (Nat.digits base n) := by
  intro n
  induction n using Nat.strong_induction_on with
  | _ n ih =>
    intro p
    rcases Nat.eq_zero_or_pos n with hn | hn
    · subst hn; simp [areDigitsSortedGo_zero]
    · have hdiv : n / base < n := Nat.div_lt_self hn (by omega)
      rw [areDigitsSorted_eq, Nat.digits_def' (by omega : 1 < base) hn,
        if_neg (by omega : ¬ n = 0), if_neg (by omega : ¬ base < 2)]
      rcases Nat.lt_or_ge p (n % base) with h | h
      · rw [if_pos h]
        simp only [Bool.false_eq_true, false_iff, List.chain_cons, not_and]
        intro hle
        omega
      · rw [if_neg (by omega), ih _ hdiv (n % base), List.chain_cons]
        simp [h]

/-- The membership characterization of `areDigitsSorted` itself: the digit
list of `n`, least significant digit first, is non-increasing (the C++
initial `prevDigit = base` dominates every digit). -/
theorem areDigitsSorted_iff_chain (base : Nat) (hb : 2 ≤ base) (n : Nat) :
    areDigitsSorted base n = true
      ↔ List.Chain (fun a b => b ≤ a) base (Nat.digits base n) :=
  areDigitsSortedGo_iff_chain base hb n base

theorem histLoopGo_eq (base n : Nat) (hb : 2 ≤ base) (hn : n ≠ 0) (h : Nat → Nat) :
    histLoopGo base n n h
      = histLoopGo base (n / base) (n / base)
          (if n % base = 0 then h
           else fun j => if j = n % base - 1 then h j + 1 else h j) := by
  obtain ⟨m, rfl⟩ : ∃ m, n = m + 1 := ⟨n - 1, by omega⟩
  have hdiv : (m + 1) / base < m + 1 := Nat.div_lt_self (by omega) (by omega)
  simp only [histLoopGo, if_neg hn, if_neg (show ¬ base < 2 by omega)]
  exact histLoopGo_fuel base _ m _ _ (by omega) (by omega)

theorem histLoopGo_count (base : Nat) (hb : 2 ≤ base) :
    ∀ n h j, histLoopGo base n n h j = h j + (Nat.digits base n).count (j + 1) := by
  intro n
  induction n using Nat.strong_induction_on with
  | _ n ih =>
    intro h j
    rcases Nat.eq_zero_or_pos n with hn | hn
    · subst hn; simp [histLoopGo_zero]
    · have hdiv : n / base < n := Nat.div_lt_self hn (by omega)
      rw [histLoopGo_eq base n hb (by omega), ih _ hdiv,
        Nat.digits_def' (by omega : 1 < base) hn, List.count_cons]
      by_cases h0 : n % base = 0
      · rw [if_pos h0]
        have hne : ¬ (n % base == j + 1) = true := by simp; omega
        rw [if_neg hne]
        omega
      · rw [if_neg h0]
        by_cases hj : j = n % base - 1
        · have heq : (n % base == j + 1) = true := by simp; omega
          rw [if_pos hj, heq]
          simp
          omega
        · have hne : ¬ (n % base == j + 1) = true := by simp; omega
          rw [if_neg hj, if_neg hne]
          omega

theorem emitDigit_eq (base d : Nat) :
    ∀ count r, emitDigit base d count r
      = Nat.ofDigits base (List.replicate count d) + r * base ^ count := by
  intro count
  induction count with
  | zero => intro r; simp [emitDigit, Nat.ofDigits]
  | succ c ih =>
    intro r
    rw [emitDigit, ih, List.replicate_succ', Nat.ofDigits_append]
    simp only [Nat.ofDigits_singleton, List.length_replicate]
    ring

theorem emitLoopGo_eq (base : Nat) (hist : Nat → Nat) :
    ∀ fuel digit r, emitLoopGo base hist fuel digit r
      = Nat.ofDigits base (emitListGo base hist fuel digit)
        + r * base ^ (emitListGo base hist fuel digit).length := by
  intro fuel
  induction fuel with
  | zero => intro digit r; simp [emitLoopGo, emitListGo, Nat.ofDigits]
  | succ f ih =>
    intro digit r
    by_cases h : digit < base
    · simp only [emitLoopGo, emitListGo, if_pos h, ih, emitDigit_eq,
        Nat.ofDigits_append, List.length_append, List.length_replicate]
      ring
    · simp [emitLoopGo, emitListGo, h, Nat.ofDigits]

theorem emitListGo_count (base : Nat) (hist : Nat → Nat) :
    ∀ fuel digit j, (emitListGo base hist fuel digit).count j
      = if digit ≤ j ∧ j < base ∧ j < digit + fuel then hist (j - 1) else 0 := by
  intro fuel
  induction fuel with
  | zero =>
    intro digit j
    rw [if_neg (by omega)]
    simp [emitListGo]
  | succ f ih =>
    intro digit j
    by_cases h : digit < base
    · have hstep : emitListGo base hist (f + 1) digit
          = emitListGo base hist f (digit + 1)
            ++ List.replicate (hist (digit - 1)) digit := by
        simp [emitListGo, h]
      rw [hstep, List.count_append, ih, List.count_replicate]
      by_cases hj : digit = j
      · subst hj
        simp only [beq_iff_eq]
        split_ifs <;> omega
      · simp only [beq_iff_eq]
        split_ifs <;> omega
    · rw [if_neg (by omega)]
      simp [emitListGo, h]

theorem emitListGo_mem (base : Nat) (hist : Nat → Nat) :
    ∀ fuel digit x, x ∈ emitListGo base hist fuel digit → digit ≤ x ∧ x < base := by
  intro fuel
  induction fuel with
  | zero => intro digit x hx; simp [emitListGo] at hx
  | succ f ih =>
    intro digit x hx
    by_cases h : digit < base
    · simp only [emitListGo, if_pos h, List.mem_append, List.mem_replicate] at hx
      rcases hx with hx | hx
      · have := ih (digit + 1) x hx
        omega
      · omega
    · simp [emitListGo, h] at hx

theorem emitListGo_pairwise (base : Nat) (hist : Nat → Nat) :
    ∀ fuel digit, (emitListGo base hist fuel digit).Pairwise fun a b => b ≤ a := by
  intro fuel
  induction fuel with
  | zero => intro digit; simp [emitListGo]
  | succ f ih =>
    intro digit
    by_cases h : digit < base
    · simp only [emitListGo, if_pos h]
      rw [List.pairwise_append]
      refine ⟨ih (digit + 1), by simp, ?_⟩
      intro x hx y hy
      have hx := emitListGo_mem base hist f (digit + 1) x hx
      have hy := List.eq_of_mem_replicate hy
      omega
    · simp [emitListGo, h]

/-- The value built by `sortDigits` is the number whose digit string is
`sortedDigitsOf`. -/
theorem sortDigits_eq_ofDigits (base n : Nat) :
    sortDigits base n = Nat.ofDigits base (sortedDigitsOf base n) := by
  rw [sortDigits, sortedDigitsOf, emitLoopGo_eq]
  simp

theorem sortedDigitsOf_mem (base n : Nat) {x : Nat} (hx : x ∈ sortedDigitsOf base n) :
    1 ≤ x ∧ x < base :=
  emitListGo_mem base _ base 1 x hx

/-- The digit list of `sortDigits base n` is exactly the emitted list:
every emitted digit is nonzero and below the base, so the emitted string is
a valid digit representation. -/
theorem digits_sortDigits (base n : Nat) (hb : 2 ≤ base) :
    Nat.digits base (sortDigits base n) = sortedDigitsOf base n := by
  rw [sortDigits_eq_ofDigits]
  refine Nat.digits_ofDigits base (by omega) _ (fun l hl => (sortedDigitsOf_mem base n hl).2)
    (fun hne => ?_)
  have := sortedDigitsOf_mem base n (List.getLast_mem hne)
  omega

theorem sortedDigitsOf_count (base n : Nat) (hb : 2 ≤ base) (j : Nat) :
    (sortedDigitsOf base n).count j
      = if 1 ≤ j ∧ j < base then (Nat.digits base n).count j else 0 := by
  rw [sortedDigitsOf, emitListGo_count]
  by_cases h : 1 ≤ j ∧ j < base
  · rw [if_pos (by omega), if_pos h, histLoopGo_count base hb n _ (j - 1)]
    simp only [Nat.zero_add]
    congr 1
    omega
  · rw [if_neg (by omega), if_neg h]

/-- The digits of `sortDigits base n` are a permutation of the nonzero
digits of `n`: the histogram pass drops every digit 0 and keeps every
nonzero digit with its multiplicity. -/
theorem sortedDigitsOf_perm (base n : Nat) (hb : 2 ≤ base) :
    (sortedDigitsOf base n).Perm ((Nat.digits base n).filter fun d => d != 0) := by
  rw [List.perm_iff_count]
  intro j
  rw [sortedDigitsOf_count base n hb j]
  by_cases hj : j = 0
  · subst hj
    rw [if_neg (by omega)]
    symm
    rw [List.count_eq_zero]
    simp [List.mem_filter]
  · by_cases hjb : j < base
    · rw [if_pos ⟨by omega, hjb⟩, List.count_filter (by simp [hj])]
    · rw [if_neg (by omega)]
      symm
      rw [List.count_eq_zero]
      intro hmem
      have := Nat.digits_lt_base (by omega : 1 < base) (List.mem_filter.mp hmem).1
      omega

theorem map_sq_filter_sum (l : List Nat) :
    ((l.filter fun d => d != 0).map fun d => d * d).sum = (l.map fun d => d * d).sum := by
  induction l with
  | nil => rfl
  | cons d t ih =>
    by_cases hd : d = 0
    · subst hd; simpa using ih
    · simp only [List.filter_cons, if_pos (by simp [hd] : (d != 0) = true)]
      simp [ih]

/-- Canonicalization preserves the digit-square sum: the emitted digits are
the nonzero digits of `n`, and zero digits contribute nothing to the sum. -/
theorem sumOfDigitSquares_sortDigits (base n : Nat) (hb : 2 ≤ base) :
    sumOfDigitSquares base (sortDigits base n) = sumOfDigitSquares base n := by
  rw [sumOfDigitSquares_eq_digits_sum base hb, sumOfDigitSquares_eq_digits_sum base hb,
    digits_sortDigits base n hb,
    List.Perm.sum_eq ((sortedDigitsOf_perm base n hb).map fun d => d * d)]
  exact map_sq_filter_sum _

/-- The output of `sortDigits` passes `areDigitsSorted`: the emitted digit
string is non-increasing from the least significant end. -/
theorem areDigitsSorted_sortDigits (base n : Nat) (hb : 2 ≤ base) :
    areDigitsSorted base (sortDigits base n) = true := by
  rw [areDigitsSorted_iff_chain base hb, digits_sortDigits base n hb]
  apply List.Pairwise.chain
  rw [List.pairwise_cons]
  refine ⟨fun x hx => ?_, emitListGo_pairwise base _ base 1⟩
  have := sortedDigitsOf_mem base n hx
  omega

/-! Minimality of the non-increasing (least-significant-first) digit
arrangement among all arrangements of the same digit multiset, and the
comparison against the original value of `n`. -/

theorem replace_le_ofDigits (base : Nat) (hb : 1 ≤ base) (a b : Nat) (hab : a ≤ b) :
    ∀ l : List Nat, b ∈ l →
      b + base * Nat.ofDigits base (l.replace b a)
        ≤ a + base * Nat.ofDigits base l := by
  intro l
  induction l with
  | nil => intro h; simp at h
  | cons c t ih =>
    intro hmem
    by_cases hcb : c = b
    · subst hcb
      rw [List.replace_cons_self, Nat.ofDigits_cons, Nat.ofDigits_cons]
      have hb2 : (1 : ℤ) ≤ (base : ℤ) := by exact_mod_cast hb
      have hab2 : (a : ℤ) ≤ (c : ℤ) := by exact_mod_cast hab
      zify
      nlinarith [mul_nonneg (sub_nonneg.mpr hb2) (sub_nonneg.mpr hab2)]
    · have hbt : b ∈ t := by
        rcases List.mem_cons.mp hmem with h | h
        · exact absurd h.symm hcb
        · exact h
      have hne : (b == c) = false := by
        simp only [beq_eq_false_iff_ne]
        exact fun h => hcb h.symm
      have hrw : (c :: t).replace b a = c :: t.replace b a := by
        simp only [List.replace_cons, hne]
      rw [hrw, Nat.ofDigits_cons, Nat.ofDigits_cons]
      have key := ih hbt
      have hb2 : (1 : ℤ) ≤ (base : ℤ) := by exact_mod_cast hb
      have hab2 : (a : ℤ) ≤ (b : ℤ) := by exact_mod_cast hab
      zify at key ⊢
      nlinarith [mul_le_mul_of_nonneg_left key (by linarith : (0 : ℤ) ≤ (base : ℤ)),
        mul_nonneg (sub_nonneg.mpr hb2) (sub_nonneg.mpr hab2)]

theorem replace_perm_cons_erase (a : Nat) :
    ∀ (l : List Nat) (b : Nat), b ∈ l → (l.replace b a).Perm (a :: l.erase b) := by
  intro l
  induction l with
  | nil => intro b h; simp at h
  | cons c t ih =>
    intro b hmem
    by_cases hcb : c = b
    · subst hcb
      rw [List.replace_cons_self, List.erase_cons_head]
    · have hbt : b ∈ t := by
        rcases List.mem_cons.mp hmem with h | h
        · exact absurd h.symm hcb
        · exact h
      have hne : (b == c) = false := by
        simp only [beq_eq_false_iff_ne]
        exact fun h => hcb h.symm
      have hrw : (c :: t).replace b a = c :: t.replace b a := by
        simp only [List.replace_cons, hne]
      rw [hrw, List.erase_cons_tail (by simp only [beq_iff_eq]; exact hcb)]
      exact ((ih b hbt).cons c).trans (List.Perm.swap a c (t.erase b))

theorem ofDigits_le_of_perm_sorted (base : Nat) (hb : 1 ≤ base) :
    ∀ (N : Nat) (L2 L1 : List Nat), L2.length ≤ N → L2.Perm L1 →
      (L2.Pairwise fun x y => y ≤ x) →
      Nat.ofDigits base L2 ≤ Nat.ofDigits base L1 := by
  intro N
  induction N with
  | zero =>
    intro L2 L1 hlen hperm _
    have h2 : L2 = [] := List.eq_nil_of_length_eq_zero (by omega)
    subst h2
    have h1 : L1 = [] := hperm.symm.eq_nil
    subst h1
    exact le_rfl
  | succ N ih =>
    intro L2 L1 hlen hperm hpw
    cases L2 with
    | nil =>
      have h1 : L1 = [] := hperm.symm.eq_nil
      subst h1
      exact le_rfl
    | cons b l2 =>
      cases L1 with
      | nil => exact absurd hperm.eq_nil (by simp)
      | cons c l1 =>
        rw [Nat.ofDigits_cons, Nat.ofDigits_cons]
        by_cases hbc : b = c
        · subst hbc
          have htail := hperm.cons_inv
          have hle := ih l2 l1 (by simpa using hlen) htail (List.pairwise_cons.mp hpw).2
          exact Nat.add_le_add_left (Nat.mul_le_mul_left base hle) b
        · have hbmem : b ∈ l1 := by
            rcases List.mem_cons.mp (hperm.subset (List.mem_cons_self b l2)) with h | h
            · exact absurd h hbc
            · exact h
          have hcl2 : c ∈ l2 := by
            rcases List.mem_cons.mp (hperm.symm.subset (List.mem_cons_self c l1)) with h | h
            · exact absurd h.symm hbc
            · exact h
          have hcb : c ≤ b := (List.pairwise_cons.mp hpw).1 c hcl2
          have hl2perm : l2.Perm (l1.replace b c) := by
            have h1 := (List.cons_perm_iff_perm_erase.mp hperm).2
            have h2 : (c :: l1).erase b = c :: l1.erase b :=
              List.erase_cons_tail (by simp only [beq_iff_eq]; exact fun h => hbc h.symm)
            rw [h2] at h1
            exact h1.trans (replace_perm_cons_erase c l1 b hbmem).symm
          have hle := ih l2 (l1.replace b c)
            (by simpa using hlen) hl2perm (List.pairwise_cons.mp hpw).2
          calc b + base * Nat.ofDigits base l2
              ≤ b + base * Nat.ofDigits base (l1.replace b c) :=
                Nat.add_le_add_left (Nat.mul_le_mul_left base hle) b
            _ ≤ c + base * Nat.ofDigits base l1 :=
                replace_le_ofDigits base hb c b hcb l1 hbmem

theorem ofDigits_filter_ne_zero_le (base : Nat) (hb : 1 ≤ base) :
    ∀ l : List Nat,
      Nat.ofDigits base (l.filter fun d => d != 0) ≤ Nat.ofDigits base l := by
  intro l
  induction l with
  | nil => exact le_rfl
  | cons d t ih =>
    by_cases hd : d = 0
    · subst hd
      simp only [List.filter_cons, if_neg (by simp : ¬ ((0 : Nat) != 0) = true)]
      calc Nat.ofDigits base (t.filter fun d => d != 0)
          ≤ Nat.ofDigits base t := ih
        _ ≤ 0 + base * Nat.ofDigits base t := by
            have := Nat.mul_le_mul_right (Nat.ofDigits base t) hb
            omega
        _ = Nat.ofDigits base (0 :: t) := (Nat.ofDigits_cons).symm
    · simp only [List.filter_cons, if_pos (by simp [hd] : (d != 0) = true)]
      rw [Nat.ofDigits_cons, Nat.ofDigits_cons]
      exact Nat.add_le_add_left (Nat.mul_le_mul_left base ih) d

/-- The core of claim C10: the number rebuilt by `sortDigits` never exceeds
`n`.  It is a permutation of the nonzero digits of `n` arranged with the
small digits at the high positions, which is minimal among arrangements,
and dropping the zero digits only shrinks the value further. -/
theorem sortDigits_le (base n : Nat) (hb : 2 ≤ base) : sortDigits base n ≤ n := by
  rw [sortDigits_eq_ofDigits]
  calc Nat.ofDigits base (sortedDigitsOf base n)
      ≤ Nat.ofDigits base ((Nat.digits base n).filter fun d => d != 0) :=
        ofDigits_le_of_perm_sorted base (by omega) (sortedDigitsOf base n).length _ _
          le_rfl (sortedDigitsOf_perm base n hb) (emitListGo_pairwise base _ base 1)
    _ ≤ Nat.ofDigits base (Nat.digits base n) :=
        ofDigits_filter_ne_zero_le base (by omega) _
    _ = n := Nat.ofDigits_digits base n

theorem isHappyFuel_succ_of_some (cfg : Config) :
    ∀ fuel cache n p, isHappyFuel cfg fuel cache n = some p →
      isHappyFuel cfg (fuel + 1) cache n = some p := by
  intro fuel
  induction fuel with
  | zero => intro cache n p h; simp [isHappyFuel] at h
  | succ f ih =>
    intro cache n p h
    rw [isHappyFuel] at h
    rw [isHappyFuel]
    split_ifs at h ⊢ with h1 h2 h3
    · exact h
    · exact h
    · exact h
    · cases hm : isHappyFuel cfg f cache (childOf cfg n) with
      | none => rw [hm] at h; simp at h
      | some q =>
        obtain ⟨qb, qc⟩ := q
        rw [hm] at h
        rw [ih cache (childOf cfg n) (qb, qc) hm]
        exact h

theorem isHappyFuel_mono (cfg : Config) {fuel g : Nat} {cache : Cache} {n : Nat}
    {p : Bool × Cache} (h : isHappyFuel cfg fuel cache n = some p) (hfg : fuel ≤ g) :
    isHappyFuel cfg g cache n = some p := by
  obtain ⟨d, rfl⟩ : ∃ d, g = fuel + d := ⟨g - fuel, by omega⟩
  induction d with
  | zero => exact h
  | succ d ih =>
    have := ih (by omega)
    rw [show fuel + (d + 1) = (fuel + d) + 1 by omega]
    exact isHappyFuel_succ_of_some cfg _ cache n p this

/-! Positivity: the engine never recurses down to 0 from a positive
number. -/

theorem sumOfDigitSquares_pos (base : Nat) (hb : 2 ≤ base) :
    ∀ n, 1 ≤ n → 1 ≤ sumOfDigitSquares base n := by
  intro n
  induction n using Nat.strong_induction_on with
  | _ n ih =>
    intro hn
    rw [sumOfDigitSquares_eq base n hb (by omega)]
    by_cases hmod : n % base = 0
    · have hdivpos : 1 ≤ n / base := by
        rcases Nat.eq_zero_or_pos (n / base) with h | h
        · exfalso
          have hdm := Nat.div_add_mod n base
          rw [h, Nat.mul_zero] at hdm
          omega
        · exact h
      have := ih (n / base) (Nat.div_lt_self (by omega) (by omega)) hdivpos
      omega
    · have : 1 ≤ n % base * (n % base) := Nat.one_le_iff_ne_zero.mpr (by
        intro h
        rcases Nat.mul_eq_zero.mp h with h | h <;> exact hmod h)
      omega

theorem sumOfDigitSquares_zero (base : Nat) : sumOfDigitSquares base 0 = 0 := rfl

theorem sortDigits_pos (base : Nat) (hb : 2 ≤ base) {m : Nat} (hm : 1 ≤ m) :
    1 ≤ sortDigits base m := by
  by_contra h
  have h0 : sortDigits base m = 0 := by omega
  have h1 := sumOfDigitSquares_sortDigits base m hb
  rw [h0, sumOfDigitSquares_zero] at h1
  have := sumOfDigitSquares_pos base hb m hm
  omega

theorem childOfSB_pos (skip : Bool) (base : Nat) (hb : 2 ≤ base) {n : Nat} (hn : 1 ≤ n) :
    1 ≤ childOfSB skip base n := by
  rw [childOfSB]
  by_cases hs : skip
  · rw [if_pos hs]
    exact sortDigits_pos base hb (sumOfDigitSquares_pos base hb n hn)
  · rw [if_neg hs]
    exact sumOfDigitSquares_pos base hb n hn

/-! Descent in base 10: below 100 everything is checked by evaluation, and
from 100 on the digit-square sum strictly decreases. -/

set_option maxRecDepth 10000 in
theorem sumOfDigitSquares_le_of_lt_100 : ∀ m, m < 100 → sumOfDigitSquares 10 m ≤ 162 := by
  decide

set_option maxRecDepth 40000 in
theorem sumOfDigitSquares_lt_of_mid : ∀ m, m < 400 → 100 ≤ m → sumOfDigitSquares 10 m < m := by
  decide

theorem sumOfDigitSquares_lt (n : Nat) : 100 ≤ n → sumOfDigitSquares 10 n < n := by
  induction n using Nat.strong_induction_on with
  | _ n ih =>
    intro hn
    by_cases hsmall : n < 400
    · exact sumOfDigitSquares_lt_of_mid n hsmall hn
    · rw [sumOfDigitSquares_eq 10 n (by omega) (by omega)]
      have h9 : n % 10 ≤ 9 := by omega
      have hmod : n % 10 * (n % 10) ≤ 81 := Nat.mul_le_mul h9 h9
      by_cases hdiv : n / 10 < 100
      · have := sumOfDigitSquares_le_of_lt_100 (n / 10) hdiv
        omega
      · have := ih (n / 10) (Nat.div_lt_self (by omega) (by omega)) (by omega)
        omega

theorem childOfSB_lt (s : Bool) (n : Nat) (hn : 100 ≤ n) :
    childOfSB s 10 n < n := by
  rw [childOfSB]
  have hlt := sumOfDigitSquares_lt n hn
  by_cases hs : s
  · rw [if_pos hs]
    calc sortDigits 10 (sumOfDigitSquares 10 n)
        ≤ sumOfDigitSquares 10 n := sortDigits_le 10 _ (by omega)
      _ < n := hlt
  · rw [if_neg hs]
    exact hlt

set_option maxRecDepth 100000 in
set_option maxHeartbeats 2000000 in
theorem reachesIn_small :
    ∀ (s : Bool), ∀ n, n < 100 → 1 ≤ n → reachesIn s 10 25 n = true := by
  decide

theorem reachesIn_exists (s : Bool) :
    ∀ n, 1 ≤ n → ∃ k, reachesIn s 10 k n = true := by
  intro n
  induction n using Nat.strong_induction_on with
  | _ n ih =>
    intro hn
    by_cases hsmall : n < 100
    · exact ⟨25, reachesIn_small s n hsmall hn⟩
    · have hchild := childOfSB_lt s n (by omega)
      have hchild1 : 1 ≤ childOfSB s 10 n :=
        childOfSB_pos s 10 (by omega) hn
      obtain ⟨k, hk⟩ := ih _ hchild hchild1
      refine ⟨k + 1, ?_⟩
      simp [reachesIn, hk]

theorem reachesIn_isHappyFuel (cfg : Config) :
    ∀ k n cache, reachesIn cfg.skipPermutations cfg.base k n = true →
      (isHappyFuel cfg (k + 1) cache n).isSome := by
  intro k
  induction k with
  | zero =>
    intro n cache h
    simp only [reachesIn, Bool.or_eq_true, beq_iff_eq] at h
    by_cases hc : isCached cfg cache n
    · simp [isHappyFuel, hc]
    · rcases h with h | h <;> subst h <;> simp [isHappyFuel, hc]
  | succ k ih =>
    intro n cache h
    by_cases hc : isCached cfg cache n
    · simp [isHappyFuel, hc]
    · by_cases h1 : n = 1
      · subst h1; simp [isHappyFuel, hc]
      · by_cases h4 : n = 4
        · subst h4; simp [isHappyFuel, hc]
        · have hr : reachesIn cfg.skipPermutations cfg.base k (childOf cfg n) = true := by
            simp only [reachesIn, Bool.or_eq_true, beq_iff_eq] at h
            rcases h with (h | h) | h
            · exact absurd h h1
            · exact absurd h h4
            · exact h
          have hsome := ih (childOf cfg n) cache hr
          obtain ⟨⟨pb, pc⟩, hp⟩ := Option.isSome_iff_exists.mp hsome
          rw [isHappyFuel]
          rw [if_neg (by simp [hc]), if_neg h1, if_neg h4, hp]
          rfl

/-- Termination of `isHappy` in base 10: from any positive starting number
and any cache state, some fuel suffices, for all four flag combinations. -/
theorem isHappy_terminates_aux (c s : Bool) (cache : Cache) (n : Nat) (hn : 1 ≤ n) :
    ∃ fuel p, isHappyFuel ⟨c, s, 10⟩ fuel cache n = some p := by
  obtain ⟨k, hk⟩ := reachesIn_exists s n hn
  have := reachesIn_isHappyFuel ⟨c, s, 10⟩ k n cache hk
  obtain ⟨p, hp⟩ := Option.isSome_iff_exists.mp this
  exact ⟨k + 1, p, hp⟩

theorem groundHappy_one (base : Nat) : groundHappy base 1 := ⟨0, rfl⟩

theorem unhappyCycle_closed :
    ∀ x ∈ unhappyCycle, sumOfDigitSquares 10 x ∈ unhappyCycle := by decide

theorem iterS_mem_cycle : ∀ k x, x ∈ unhappyCycle → iterS 10 k x ∈ unhappyCycle := by
  intro k
  induction k with
  | zero => intro x hx; exact hx
  | succ k ih => intro x hx; exact ih _ (unhappyCycle_closed x hx)

theorem not_groundHappy_four : ¬ groundHappy 10 4 := by
  rintro ⟨k, hk⟩
  have hmem := iterS_mem_cycle k 4 (by decide)
  rw [hk] at hmem
  exact absurd hmem (by decide)

theorem sumOfDigitSquares_one (base : Nat) (hb : 2 ≤ base) :
    sumOfDigitSquares base 1 = 1 := by
  rw [sumOfDigitSquares_eq base 1 hb (by omega), Nat.mod_eq_of_lt (by omega),
    Nat.div_eq_of_lt (by omega), sumOfDigitSquares_zero]

theorem groundHappy_step (base : Nat) {n : Nat} (hn : n ≠ 1) :
    groundHappy base n ↔ groundHappy base (sumOfDigitSquares base n) := by
  constructor
  · rintro ⟨k, hk⟩
    cases k with
    | zero => exact absurd hk hn
    | succ k => exact ⟨k, hk⟩
  · rintro ⟨k, hk⟩
    exact ⟨k + 1, hk⟩

theorem groundHappy_sort (base : Nat) (hb : 2 ≤ base) (m : Nat) :
    groundHappy base (sortDigits base m) ↔ groundHappy base m := by
  constructor
  · rintro ⟨k, hk⟩
    cases k with
    | zero =>
      refine ⟨1, ?_⟩
      show sumOfDigitSquares base m = 1
      have h1 : sortDigits base m = 1 := hk
      rw [← sumOfDigitSquares_sortDigits base m hb, h1, sumOfDigitSquares_one base hb]
    | succ k =>
      refine ⟨k + 1, ?_⟩
      show iterS base k (sumOfDigitSquares base m) = 1
      rw [← sumOfDigitSquares_sortDigits base m hb]
      exact hk
  · rintro ⟨k, hk⟩
    cases k with
    | zero =>
      have h1 : m = 1 := hk
      subst h1
      refine ⟨1, ?_⟩
      show sumOfDigitSquares base (sortDigits base 1) = 1
      rw [sumOfDigitSquares_sortDigits base 1 hb, sumOfDigitSquares_one base hb]
    | succ k =>
      refine ⟨k + 1, ?_⟩
      show iterS base k (sumOfDigitSquares base (sortDigits base m)) = 1
      rw [sumOfDigitSquares_sortDigits base m hb]
      exact hk

theorem groundHappy_childOf (cfg : Config) (hb : 2 ≤ cfg.base) {n : Nat} (hn : n ≠ 1) :
    groundHappy cfg.base (childOf cfg n) ↔ groundHappy cfg.base n := by
  rw [childOf, childOfSB]
  by_cases hs : cfg.skipPermutations
  · rw [if_pos hs, groundHappy_sort cfg.base hb]
    exact (groundHappy_step cfg.base hn).symm
  · rw [if_neg hs]
    exact (groundHappy_step cfg.base hn).symm

/-! Cache-free reference semantics and cache validity. -/

theorem lookup_cons_eq (m n : Nat) (b : Bool) (c : Cache) :
    ((n, b) :: c).lookup m = if m = n then some b else c.lookup m := by
  rw [List.lookup_cons]
  by_cases h : m = n
  · have ht : (m == n) = true := by simp [h]
    rw [ht, if_pos h]
  · have hf : (m == n) = false := by simp [h]
    rw [hf, if_neg h]

theorem isCached_iff (cfg : Config) (cache : Cache) (n : Nat) :
    isCached cfg cache n = true
      ↔ cfg.cacheResults = true ∧ (cache.lookup n).isSome := by
  rw [isCached]
  by_cases hc : cfg.cacheResults <;> simp [hc]

/-- A run with caching disabled returns the cache unchanged. -/
theorem isHappyFuel_nocache (cfg : Config) (hc : cfg.cacheResults = false) :
    ∀ fuel cache n b cache2, isHappyFuel cfg fuel cache n = some (b, cache2) →
      cache2 = cache := by
  intro fuel
  induction fuel with
  | zero => intro cache n b cache2 h; simp [isHappyFuel] at h
  | succ f ih =>
    intro cache n b cache2 h
    rw [isHappyFuel] at h
    have hcc : isCached cfg cache n = false := by simp [isCached, hc]
    rw [hcc] at h
    simp only [Bool.false_eq_true, if_false] at h
    by_cases h1 : n = 1
    · rw [if_pos h1] at h
      cases h
      rfl
    · rw [if_neg h1] at h
      by_cases h4 : n = 4
      · rw [if_pos h4] at h
        cases h
        rfl
      · rw [if_neg h4] at h
        cases hrec : isHappyFuel cfg f cache (childOf cfg n) with
        | none => rw [hrec] at h; simp at h
        | some q =>
          obtain ⟨cb, cc⟩ := q
          rw [hrec] at h
          have hcceq := ih cache (childOf cfg n) cb cc hrec
          cases h
          rw [newResult, hc]
          simp only [Bool.false_eq_true, if_false]
          exact hcceq


theorem pureResult_unique {skip : Bool} {base n : Nat} {b b2 : Bool}
    (h1 : pureResult skip base n b) (h2 : pureResult skip base n b2) : b = b2 := by
  obtain ⟨f1, c1, h1⟩ := h1
  obtain ⟨f2, c2, h2⟩ := h2
  have h1m := isHappyFuel_mono _ h1 (Nat.le_max_left f1 f2)
  have h2m := isHappyFuel_mono _ h2 (Nat.le_max_right f1 f2)
  rw [h1m] at h2m
  cases h2m
  rfl

/-- Soundness of a cached run against the cache-free reference: starting
from a valid cache, the returned boolean is the cache-free result and the
final cache is valid again. -/
theorem isHappyFuel_sound (cfg : Config) :
    ∀ fuel cache n b cache2,
      isHappyFuel cfg fuel cache n = some (b, cache2) →
      validCache cfg.skipPermutations cfg.base cache →
      pureResult cfg.skipPermutations cfg.base n b
        ∧ validCache cfg.skipPermutations cfg.base cache2 := by
  intro fuel
  induction fuel with
  | zero => intro cache n b cache2 h hv; simp [isHappyFuel] at h
  | succ f ih =>
    intro cache n b cache2 h hv
    rw [isHappyFuel] at h
    by_cases hcch : isCached cfg cache n
    · rw [if_pos hcch] at h
      obtain ⟨hcr, hsome⟩ := (isCached_iff cfg cache n).mp hcch
      obtain ⟨v, hvl⟩ := Option.isSome_iff_exists.mp hsome
      rw [hvl] at h
      cases h
      exact ⟨hv n v hvl, hv⟩
    · rw [if_neg hcch] at h
      by_cases h1 : n = 1
      · subst h1
        rw [if_pos rfl] at h
        cases h
        refine ⟨⟨1, [], ?_⟩, hv⟩
        simp [isHappyFuel, isCached]
      · rw [if_neg h1] at h
        by_cases h4 : n = 4
        · subst h4
          rw [if_pos rfl] at h
          cases h
          refine ⟨⟨1, [], ?_⟩, hv⟩
          simp [isHappyFuel, isCached]
        · rw [if_neg h4] at h
          cases hrec : isHappyFuel cfg f cache (childOf cfg n) with
          | none => rw [hrec] at h; simp at h
          | some q =>
            obtain ⟨cb, cc⟩ := q
            rw [hrec] at h
            obtain ⟨hpure, hvcc⟩ := ih cache (childOf cfg n) cb cc hrec hv
            have hpuren : pureResult cfg.skipPermutations cfg.base n cb := by
              obtain ⟨pf, pc, hpf⟩ := hpure
              have hpc : pc = [] := isHappyFuel_nocache _ rfl pf [] _ cb pc hpf
              subst hpc
              refine ⟨pf + 1, [], ?_⟩
              rw [isHappyFuel]
              have hcp : isCached ⟨false, cfg.skipPermutations, cfg.base⟩ [] n = false := by
                simp [isCached]
              rw [hcp]
              simp only [Bool.false_eq_true, if_false]
              rw [if_neg h1, if_neg h4]
              have hchild : childOf ⟨false, cfg.skipPermutations, cfg.base⟩ n
                  = childOf cfg n := rfl
              rw [hchild, hpf]
              simp [newResult]
            cases h
            refine ⟨hpuren, ?_⟩
            rw [newResult]
            by_cases hcr : cfg.cacheResults
            · rw [if_pos hcr]
              cases hlk : cc.lookup n with
              | some w =>
                have hws : ((some w : Option Bool)).isSome = true := rfl
                rw [if_pos hws]
                exact hvcc
              | none =>
                rw [if_neg (by simp)]
                intro m v hm
                rw [lookup_cons_eq] at hm
                by_cases hmn : m = n
                · rw [if_pos hmn] at hm
                  cases hm
                  rw [hmn]
                  exact hpuren
                · rw [if_neg hmn] at hm
                  exact hvcc m v hm
            · rw [if_neg hcr]
              exact hvcc

/-- The cache-free result decides mathematical happiness in base 10. -/
theorem pureResult_groundHappy (skip : Bool) :
    ∀ fuel n b cache2, 1 ≤ n →
      isHappyFuel ⟨false, skip, 10⟩ fuel [] n = some (b, cache2) →
      (b = true ↔ groundHappy 10 n) := by
  intro fuel
  induction fuel with
  | zero => intro n b cache2 hn h; simp [isHappyFuel] at h
  | succ f ih =>
    intro n b cache2 hn h
    rw [isHappyFuel] at h
    have hcp : isCached ⟨false, skip, 10⟩ [] n = false := by simp [isCached]
    rw [hcp] at h
    simp only [Bool.false_eq_true, if_false] at h
    by_cases h1 : n = 1
    · subst h1
      rw [if_pos rfl] at h
      cases h
      simp [groundHappy_one]
    · rw [if_neg h1] at h
      by_cases h4 : n = 4
      · subst h4
        rw [if_pos rfl] at h
        cases h
        simp [not_groundHappy_four]
      · rw [if_neg h4] at h
        cases hrec : isHappyFuel ⟨false, skip, 10⟩ f [] (childOf ⟨false, skip, 10⟩ n) with
        | none => rw [hrec] at h; simp at h
        | some q =>
          obtain ⟨cb, cc⟩ := q
          rw [hrec] at h
          have hchild1 : 1 ≤ childOf ⟨false, skip, 10⟩ n :=
            childOfSB_pos skip 10 (by omega) hn
          have hiff := ih _ cb cc hchild1 hrec
          have hbridge := groundHappy_childOf ⟨false, skip, 10⟩
            (by show (2 : Nat) ≤ 10; omega) h1
          cases h
          exact hiff.trans hbridge

/-- The constructor's cache is valid for every flag combination. -/
theorem initCache_valid (c skip : Bool) (base : Nat) :
    validCache skip base (initCache c) := by
  intro m v hm
  by_cases hc : c
  · subst hc
    rw [initCache] at hm
    simp only [if_pos] at hm
    rw [lookup_cons_eq] at hm
    by_cases hm1 : m = 1
    · rw [if_pos hm1] at hm
      cases hm
      subst hm1
      refine ⟨1, [], ?_⟩
      simp [isHappyFuel, isCached]
    · rw [if_neg hm1, lookup_cons_eq] at hm
      by_cases hm4 : m = 4
      · rw [if_pos hm4] at hm
        cases hm
        subst hm4
        refine ⟨1, [], ?_⟩
        simp [isHappyFuel, isCached]
      · rw [if_neg hm4] at hm
        simp at hm
  · simp [initCache, hc] at hm

/-- One classification call never removes or changes an existing cache
entry: `emplace` only ever inserts absent keys. -/
theorem isHappyFuel_cache_stable (cfg : Config) :
    ∀ fuel cache n b cache2, isHappyFuel cfg fuel cache n = some (b, cache2) →
      ∀ m v, cache.lookup m = some v → cache2.lookup m = some v := by
  intro fuel
  induction fuel with
  | zero => intro cache n b cache2 h; simp [isHappyFuel] at h
  | succ f ih =>
    intro cache n b cache2 h m v hm
    rw [isHappyFuel] at h
    by_cases hcch : isCached cfg cache n
    · rw [if_pos hcch] at h
      cases h
      exact hm
    · rw [if_neg hcch] at h
      by_cases h1 : n = 1
      · rw [if_pos h1] at h; cases h; exact hm
      · rw [if_neg h1] at h
        by_cases h4 : n = 4
        · rw [if_pos h4] at h; cases h; exact hm
        · rw [if_neg h4] at h
          cases hrec : isHappyFuel cfg f cache (childOf cfg n) with
          | none => rw [hrec] at h; simp at h
          | some q =>
            obtain ⟨cb, cc⟩ := q
            rw [hrec] at h
            have hcc := ih cache (childOf cfg n) cb cc hrec m v hm
            cases h
            rw [newResult]
            by_cases hcr : cfg.cacheResults
            · rw [if_pos hcr]
              cases hlk : cc.lookup n with
              | some w =>
                have hws : ((some w : Option Bool)).isSome = true := rfl
                rw [if_pos hws]
                exact hcc
              | none =>
                rw [if_neg (by simp)]
                rw [lookup_cons_eq]
                by_cases hmn : m = n
                · subst hmn
                  rw [hcc] at hlk
                  cases hlk
                · rw [if_neg hmn]
                  exact hcc
            · rw [if_neg hcr]
              exact hcc

/-- Cache entries survive, with unchanged value, any subsequent sequence of
classification calls. -/
theorem runCalls_stable (cfg : Config) :
    ∀ reqs cache m v, cache.lookup m = some v →
      (runCalls cfg reqs cache).lookup m = some v := by
  intro reqs
  induction reqs with
  | nil => intro cache m v hm; exact hm
  | cons r rest ih =>
    intro cache m v hm
    obtain ⟨fuel, n⟩ := r
    rw [runCalls]
    cases hcall : isHappyFuel cfg fuel cache n with
    | none => exact ih cache m v hm
    | some q =>
      obtain ⟨b, cache2⟩ := q
      exact ih cache2 m v (isHappyFuel_cache_stable cfg fuel cache n b cache2 hcall m v hm)

/-- After a successful classification of `n ≥ 1` with caching enabled,
starting from a valid cache that holds both seeds, the cache maps `n` to
the returned result. -/
theorem isHappyFuel_lookup_after (cfg : Config) (hcr : cfg.cacheResults = true)
    {fuel : Nat} {cache : Cache} {n : Nat} {b : Bool} {cache2 : Cache}
    (h : isHappyFuel cfg fuel cache n = some (b, cache2))
    (hv : validCache cfg.skipPermutations cfg.base cache)
    (h1 : cache.lookup 1 = some true) (h4 : cache.lookup 4 = some false) :
    cache2.lookup n = some b := by
  cases fuel with
  | zero => simp [isHappyFuel] at h
  | succ f =>
    have hsound := isHappyFuel_sound cfg (f + 1) cache n b cache2 h hv
    rw [isHappyFuel] at h
    by_cases hcch : isCached cfg cache n
    · rw [if_pos hcch] at h
      obtain ⟨v, hvl⟩ := Option.isSome_iff_exists.mp ((isCached_iff cfg cache n).mp hcch).2
      rw [hvl] at h
      cases h
      exact hvl
    · by_cases hn1 : n = 1
      · subst hn1
        exact absurd ((isCached_iff cfg cache 1).mpr ⟨hcr, by rw [h1]; rfl⟩) hcch
      · by_cases hn4 : n = 4
        · subst hn4
          exact absurd ((isCached_iff cfg cache 4).mpr ⟨hcr, by rw [h4]; rfl⟩) hcch
        · rw [if_neg hcch, if_neg hn1, if_neg hn4] at h
          cases hrec : isHappyFuel cfg f cache (childOf cfg n) with
          | none => rw [hrec] at h; simp at h
          | some q =>
            obtain ⟨cb, cc⟩ := q
            rw [hrec] at h
            have hvcc := (isHappyFuel_sound cfg f cache (childOf cfg n) cb cc hrec hv).2
            cases h
            rw [newResult, if_pos hcr]
            cases hlk : cc.lookup n with
            | some w =>
              have hws : ((some w : Option Bool)).isSome = true := rfl
              rw [if_pos hws]
              have hw := hvcc n w hlk
              have hcb := hsound.1
              rw [hlk, pureResult_unique hw hcb]
            | none =>
              rw [if_neg (by simp)]
              rw [lookup_cons_eq, if_pos rfl]


theorem scanNextGo_spec (base : Nat) (skip : Bool) :
    ∀ fuel start i, scanNextGo base skip fuel start = some i →
      start ≤ i ∧ (!skip || areDigitsSorted base i) = true
        ∧ ∀ j, start ≤ j → j < i → (!skip || areDigitsSorted base j) = false := by
  intro fuel
  induction fuel with
  | zero => intro start i h; simp [scanNextGo] at h
  | succ f ih =>
    intro start i h
    rw [scanNextGo] at h
    by_cases hg : (!skip || areDigitsSorted base start) = true
    · rw [if_pos hg] at h
      cases h
      exact ⟨le_rfl, hg, fun j hj1 hj2 => absurd hj1 (by omega)⟩
    · rw [if_neg hg] at h
      obtain ⟨h1, h2, h3⟩ := ih (start + 1) i h
      rw [Bool.not_eq_true] at hg
      refine ⟨by omega, h2, fun j hj1 hj2 => ?_⟩
      by_cases hj : j = start
      · subst hj
        exact hg
      · exact h3 j (by omega) hj2

theorem scanNextGo_some_of_good (base : Nat) (skip : Bool) :
    ∀ fuel start j, start ≤ j → j < start + fuel →
      (!skip || areDigitsSorted base j) = true →
      ∃ i, scanNextGo base skip fuel start = some i := by
  intro fuel
  induction fuel with
  | zero => intro start j h1 h2 h3; omega
  | succ f ih =>
    intro start j h1 h2 h3
    rw [scanNextGo]
    by_cases hg : (!skip || areDigitsSorted base start) = true
    · rw [if_pos hg]
      exact ⟨start, rfl⟩
    · rw [if_neg hg]
      rcases Nat.eq_or_lt_of_le h1 with h | h
      · subst h
        exact absurd h3 hg
      · exact ih (start + 1) j (by omega) (by omega) h3

theorem digits_base_pow_sub_one (base : Nat) (hb : 2 ≤ base) :
    ∀ k, Nat.digits base (base ^ k - 1) = List.replicate k (base - 1) := by
  intro k
  induction k with
  | zero => simp
  | succ k ih =>
    have hpow : 1 ≤ base ^ k := Nat.one_le_pow k base (by omega)
    have hmul : base * (base ^ k - 1) + base = base * base ^ k := by
      obtain ⟨q, hq⟩ : ∃ q, base ^ k = q + 1 := ⟨base ^ k - 1, by omega⟩
      rw [hq]
      simp only [Nat.add_sub_cancel]
      ring
    have hpow2 : base ^ (k + 1) = base * base ^ k := by ring
    have heq : base ^ (k + 1) - 1 = (base - 1) + base * (base ^ k - 1) := by
      omega
    have hne : base ^ (k + 1) - 1 ≠ 0 := by omega
    rw [Nat.digits_def' (by omega : 1 < base) (by omega), heq]
    have hmod : ((base - 1) + base * (base ^ k - 1)) % base = base - 1 := by
      rw [Nat.add_mul_mod_self_left, Nat.mod_eq_of_lt (by omega)]
    have hdiv : ((base - 1) + base * (base ^ k - 1)) / base = base ^ k - 1 := by
      rw [Nat.add_mul_div_left _ _ (by omega : 0 < base),
        Nat.div_eq_of_lt (by omega), Nat.zero_add]
    rw [hmod, hdiv, ih]
    rfl

theorem areDigitsSorted_pow_sub_one (base : Nat) (hb : 2 ≤ base) (k : Nat) :
    areDigitsSorted base (base ^ k - 1) = true := by
  rw [areDigitsSorted_iff_chain base hb, digits_base_pow_sub_one base hb k]
  apply List.Pairwise.chain
  rw [List.pairwise_cons]
  constructor
  · intro x hx
    have := List.eq_of_mem_replicate hx
    omega
  · rw [List.pairwise_replicate]
    right
    exact le_rfl

theorem scanNextGo_isSome (base : Nat) (hb : 2 ≤ base) (skip : Bool) (start : Nat) :
    ∃ i, scanNextGo base skip (base ^ (start + 1)) start = some i := by
  by_cases hs : skip
  · subst hs
    have hlt : start + 1 < base ^ (start + 1) := by
      calc start + 1 < 2 ^ (start + 1) := Nat.lt_two_pow (start + 1)
        _ ≤ base ^ (start + 1) := Nat.pow_le_pow_left hb (start + 1)
    refine scanNextGo_some_of_good base true (base ^ (start + 1)) start
      (base ^ (start + 1) - 1) (by omega) (by omega) ?_
    simp only [Bool.not_true, Bool.false_or]
    exact areDigitsSorted_pow_sub_one base hb (start + 1)
  · rw [Bool.not_eq_true] at hs
    subst hs
    have hpow : 1 ≤ base ^ (start + 1) := Nat.one_le_pow _ _ (by omega)
    exact scanNextGo_some_of_good base false (base ^ (start + 1)) start start le_rfl
      (by omega) (by simp)

theorem scanNextGo_false (base : Nat) (hb : 1 ≤ base) (start : Nat) :
    scanNextGo base false (base ^ (start + 1)) start = some start := by
  have hpow : 1 ≤ base ^ (start + 1) := Nat.one_le_pow _ _ (by omega)
  obtain ⟨f, hf⟩ : ∃ f, base ^ (start + 1) = f + 1 := ⟨base ^ (start + 1) - 1, by omega⟩
  rw [hf, scanNextGo]
  simp

theorem getNextNumber_spec (base : Nat) (hb : 2 ≤ base) (skip : Bool) (mi : Option Nat)
    (st : CursorState) :
    st.nextNumber ≤ (getNextNumber base skip mi st).1
      ∧ (getNextNumber base skip mi st).2.nextNumber
          = (getNextNumber base skip mi st).1 + 1 := by
  obtain ⟨i, hscan⟩ := scanNextGo_isSome base hb skip st.nextNumber
  have hspec := scanNextGo_spec base skip _ _ i hscan
  cases mi with
  | none =>
    simp only [getNextNumber, hscan, Option.getD_some]
    exact ⟨hspec.1, trivial⟩
  | some m =>
    simp only [getNextNumber, hscan, Option.getD_some]
    by_cases hc : st.lastMilestone + m < i
    · rw [if_pos hc]
      exact ⟨hspec.1, rfl⟩
    · rw [if_neg hc]
      exact ⟨hspec.1, rfl⟩


theorem runCursor_fst_length (base : Nat) (skip : Bool) (mi : Option Nat) :
    ∀ k st, (runCursor base skip mi k st).1.length = k := by
  intro k
  induction k with
  | zero => intro st; rfl
  | succ k ih => intro st; simp [runCursor, ih]

/-- Under permutation skipping, `k` pulls from any state hand out exactly
the non-skipped numbers of the interval the cursor traversed, in order. -/
theorem runCursor_skip (base : Nat) (hb : 2 ≤ base) :
    ∀ k st,
      (runCursor base true none k st).1
        = (List.range' st.nextNumber
            ((runCursor base true none k st).2.nextNumber - st.nextNumber)).filter
              (fun j => areDigitsSorted base j)
      ∧ st.nextNumber + k ≤ (runCursor base true none k st).2.nextNumber := by
  intro k
  induction k with
  | zero =>
    intro st
    simp [runCursor]
  | succ k ih =>
    intro st
    obtain ⟨i, hscan⟩ := scanNextGo_isSome base hb true st.nextNumber
    obtain ⟨hge, hgood, hmin⟩ := scanNextGo_spec base true _ _ i hscan
    simp only [Bool.not_true, Bool.false_or] at hgood hmin
    have hstep : getNextNumber base true none st
        = (i, ⟨i + 1, st.lastMilestone, st.milestoneLog⟩) := by
      simp only [getNextNumber, hscan, Option.getD_some]
    have hrun : runCursor base true none (k + 1) st
        = (i :: (runCursor base true none k ⟨i + 1, st.lastMilestone, st.milestoneLog⟩).1,
           (runCursor base true none k ⟨i + 1, st.lastMilestone, st.milestoneLog⟩).2) := by
      rw [runCursor, hstep]
    obtain ⟨ih1, ih2⟩ := ih ⟨i + 1, st.lastMilestone, st.milestoneLog⟩
    obtain ⟨t, ht⟩ : ∃ t,
        (runCursor base true none k ⟨i + 1, st.lastMilestone, st.milestoneLog⟩).2.nextNumber
          = t := ⟨_, rfl⟩
    rw [ht] at ih1 ih2
    have ih1b : (runCursor base true none k ⟨i + 1, st.lastMilestone, st.milestoneLog⟩).1
        = (List.range' (i + 1) (t - (i + 1))).filter (fun j => areDigitsSorted base j) := ih1
    have ih2b : i + 1 + k ≤ t := ih2
    rw [hrun]
    simp only [ht]
    have hit : i + 1 ≤ t := by omega
    constructor
    · have hm1 : st.nextNumber + (i + 1 - st.nextNumber) = i + 1 := by omega
      have hmn : (t - (i + 1)) + (i + 1 - st.nextNumber) = t - st.nextNumber := by omega
      have hsplit := List.range'_append_1 st.nextNumber (i + 1 - st.nextNumber) (t - (i + 1))
      rw [hm1, hmn] at hsplit
      have hone : List.range' st.nextNumber (i + 1 - st.nextNumber)
          = List.range' st.nextNumber (i - st.nextNumber) ++ [i] := by
        rw [show i + 1 - st.nextNumber = (i - st.nextNumber) + 1 by omega,
          List.range'_1_concat,
          show st.nextNumber + (i - st.nextNumber) = i by omega]
      rw [ih1b, ← hsplit, hone, List.filter_append, List.filter_append]
      have hnil : (List.range' st.nextNumber (i - st.nextNumber)).filter
          (fun j => areDigitsSorted base j) = [] := by
        rw [List.filter_eq_nil_iff]
        intro a ha
        rw [List.mem_range'] at ha
        obtain ⟨j, hj, rfl⟩ := ha
        have := hmin (st.nextNumber + 1 * j) (by omega) (by omega)
        simp only [this]
        exact Bool.false_ne_true
      rw [hnil]
      have hi1 : [i].filter (fun j => areDigitsSorted base j) = [i] := by
        simp [hgood]
      rw [hi1]
      simp
    · omega


theorem runCursor_skip_pairwise (base : Nat) (hb : 2 ≤ base) (k : Nat) :
    List.Pairwise (fun a b => a < b) (runCursor base true none k initCursor).1 := by
  obtain ⟨hout, _⟩ := runCursor_skip base hb k initCursor
  rw [hout]
  exact (List.pairwise_lt_range' _ _ 1 (by simp)).filter _

/-- Truncation at a bound: once at least as many pulls have happened as
there are non-skipped numbers below `B`, the handed-out numbers below `B`
are exactly `sortedUpTo base B`, with nothing missing and nothing extra. -/
theorem runCursor_skip_truncate (base : Nat) (hb : 2 ≤ base) (B k : Nat)
    (hk : (sortedUpTo base B).length ≤ k) :
    ((runCursor base true none k initCursor).1.filter fun x => decide (x < B))
      = sortedUpTo base B := by
  obtain ⟨hout, hlen⟩ := runCursor_skip base hb k initCursor
  obtain ⟨t, ht⟩ : ∃ t, (runCursor base true none k initCursor).2.nextNumber = t := ⟨_, rfl⟩
  rw [ht] at hout hlen
  have hout2 : (runCursor base true none k initCursor).1
      = (List.range' 1 (t - 1)).filter fun j => areDigitsSorted base j := hout
  have hlen2 : 1 + k ≤ t := hlen
  by_cases hB0 : B = 0
  · subst hB0
    have h1 : sortedUpTo base 0 = [] := rfl
    rw [h1, List.filter_eq_nil_iff]
    intro a _
    simp
  · by_cases hBt : t ≤ B
    · have hsplitR : List.range' 1 (B - 1)
          = List.range' 1 (t - 1) ++ List.range' t (B - t) := by
        have h := List.range'_append_1 1 (t - 1) (B - t)
        rw [show 1 + (t - 1) = t by omega, show (B - t) + (t - 1) = B - 1 by omega] at h
        exact h.symm
      have hST : sortedUpTo base B
          = ((List.range' 1 (t - 1)).filter fun j => areDigitsSorted base j)
            ++ ((List.range' t (B - t)).filter fun j => areDigitsSorted base j) := by
        rw [sortedUpTo, hsplitR, List.filter_append]
      have hlenout : (runCursor base true none k initCursor).1.length = k :=
        runCursor_fst_length base true none k initCursor
      have hlen3 : (sortedUpTo base B).length
          = k + ((List.range' t (B - t)).filter fun j => areDigitsSorted base j).length := by
        rw [hST, List.length_append, ← hout2, hlenout]
      have hnil : ((List.range' t (B - t)).filter fun j => areDigitsSorted base j) = [] :=
        List.eq_nil_of_length_eq_zero (by omega)
      have hST2 : sortedUpTo base B = (runCursor base true none k initCursor).1 := by
        rw [hST, hnil, List.append_nil, hout2]
      rw [← hST2]
      apply List.filter_eq_self.mpr
      intro a ha
      rw [sortedUpTo, List.mem_filter, List.mem_range'] at ha
      obtain ⟨⟨j, hj, rfl⟩, _⟩ := ha
      simp only [decide_eq_true_eq]
      omega
    · have hsplitR : List.range' 1 (t - 1)
          = List.range' 1 (B - 1) ++ List.range' B (t - B) := by
        have h := List.range'_append_1 1 (B - 1) (t - B)
        rw [show 1 + (B - 1) = B by omega, show (t - B) + (B - 1) = t - 1 by omega] at h
        exact h.symm
      rw [hout2, hsplitR, List.filter_append, List.filter_append]
      have hfirst : (((List.range' 1 (B - 1)).filter fun j => areDigitsSorted base j).filter
          fun x => decide (x < B)) = sortedUpTo base B := by
        rw [sortedUpTo]
        apply List.filter_eq_self.mpr
        intro a ha
        rw [List.mem_filter, List.mem_range'] at ha
        obtain ⟨⟨j, hj, rfl⟩, _⟩ := ha
        simp only [decide_eq_true_eq]
        omega
      have hsecond : (((List.range' B (t - B)).filter fun j => areDigitsSorted base j).filter
          fun x => decide (x < B)) = [] := by
        rw [List.filter_eq_nil_iff]
        intro a ha
        rw [List.mem_filter, List.mem_range'] at ha
        obtain ⟨⟨j, hj, rfl⟩, _⟩ := ha
        simp only [decide_eq_true_eq]
        omega
      rw [hfirst, hsecond, List.append_nil]

/-! Milestones: non-skip pulls hand out `1, 2, 3, …` and fire one
milestone whenever the returned number first exceeds
`lastMilestone + milestoneInc`. -/

theorem getNextNumber_false (base : Nat) (hb : 1 ≤ base) (m : Nat) (st : CursorState) :
    getNextNumber base false (some m) st
      = if st.lastMilestone + m < st.nextNumber
        then (st.nextNumber, ⟨st.nextNumber + 1, st.lastMilestone + m,
              st.milestoneLog ++ [st.lastMilestone + m]⟩)
        else (st.nextNumber, ⟨st.nextNumber + 1, st.lastMilestone, st.milestoneLog⟩) := by
  simp only [getNextNumber, scanNextGo_false base hb, Option.getD_some]

theorem runCursor_succ_right (base : Nat) (skip : Bool) (mi : Option Nat) :
    ∀ k st, runCursor base skip mi (k + 1) st
      = ((runCursor base skip mi k st).1
          ++ [(getNextNumber base skip mi (runCursor base skip mi k st).2).1],
         (getNextNumber base skip mi (runCursor base skip mi k st).2).2) := by
  intro k
  induction k with
  | zero =>
    intro st
    simp [runCursor]
  | succ k ih =>
    intro st
    rw [show k + 1 + 1 = (k + 1) + 1 by rfl]
    conv_lhs => rw [runCursor]
    rw [ih]
    conv_rhs => rw [runCursor]
    simp

theorem milestone_arith (M : Nat) (hM : 1 ≤ M) (n : Nat) :
    (M * ((n - 1) / M) + M < n + 1 →
      (n / M = (n - 1) / M + 1 ∧ M * ((n - 1) / M) + M = M * (n / M)))
    ∧ (¬ M * ((n - 1) / M) + M < n + 1 → n / M = (n - 1) / M) := by
  rcases Nat.eq_zero_or_pos n with hn | hn
  · subst hn
    constructor
    · intro hcond
      simp only [Nat.zero_sub, Nat.zero_div, Nat.mul_zero, Nat.zero_add] at hcond
      omega
    · intro _
      simp
  · obtain ⟨w, rfl⟩ : ∃ w, n = w + 1 := ⟨n - 1, by omega⟩
    simp only [Nat.add_sub_cancel]
    have hdm := Nat.div_add_mod w M
    have hmod : w % M < M := Nat.mod_lt w (by omega)
    constructor
    · intro hcond
      have hrM : w % M = M - 1 := by omega
      have hsum : w + 1 = M * (w / M) + M := by omega
      have hM1 : M * (w / M) + M = M * (w / M + 1) := by ring
      have hdiv : (w + 1) / M = w / M + 1 := by
        rw [hsum, hM1, Nat.mul_div_cancel_left _ (show 0 < M by omega)]
      refine ⟨hdiv, ?_⟩
      rw [hdiv]
      ring
    · intro hcond
      have hlt : w % M + 1 < M := by omega
      have hsum : w + 1 = M * (w / M) + (w % M + 1) := by omega
      rw [hsum, Nat.mul_add_div (by omega), Nat.div_eq_of_lt hlt, Nat.add_zero]


theorem cursor_mile_step (base : Nat) (hb : 1 ≤ base) (M : Nat) (hM : 1 ≤ M) (n : Nat) :
    getNextNumber base false (some M)
        ⟨n + 1, M * ((n - 1) / M), (List.range ((n - 1) / M)).map fun j => M * (j + 1)⟩
      = (n + 1, ⟨n + 2, M * (n / M), (List.range (n / M)).map fun j => M * (j + 1)⟩) := by
  rw [getNextNumber_false base hb]
  dsimp only
  obtain ⟨harith1, harith2⟩ := milestone_arith M hM n
  by_cases hfire : M * ((n - 1) / M) + M < n + 1
  · obtain ⟨hdiv, hlast⟩ := harith1 hfire
    rw [if_pos hfire, hdiv]
    rw [show M * ((n - 1) / M) + M = M * ((n - 1) / M + 1) by ring]
    rw [List.range_succ, List.map_append]
    rfl
  · rw [if_neg hfire, harith2 hfire]

/-- Closed form of a non-skip cursor run with milestone interval `M`: after
`n` pulls the numbers `1, …, n` have been handed out in order and exactly
the boundaries `M, 2M, …, ⌊(n-1)/M⌋·M` have been announced, each once and
in order. -/
theorem runCursor_milestones (base : Nat) (hb : 1 ≤ base) (M : Nat) (hM : 1 ≤ M) :
    ∀ n, runCursor base false (some M) n initCursor
      = (List.range' 1 n,
         ⟨n + 1, M * ((n - 1) / M), (List.range ((n - 1) / M)).map fun j => M * (j + 1)⟩) := by
  intro n
  induction n with
  | zero =>
    simp [runCursor, initCursor]
  | succ n ih =>
    rw [runCursor_succ_right, ih]
    dsimp only
    rw [cursor_mile_step base hb M hM n]
    dsimp only
    simp only [Nat.add_sub_cancel]
    rw [List.range'_1_concat]
    simp [Nat.add_comm]
    omega


theorem threadLoopGo_nil (base : Nat) (skip : Bool) (mi : Option Nat) (stopAt : Nat) :
    ∀ fuel n st, stopAt ≤ n → threadLoopGo base skip mi stopAt fuel n st = [] := by
  intro fuel n st h
  cases fuel with
  | zero => rfl
  | succ f => rw [threadLoopGo, if_neg (by omega)]

theorem threadLoopGo_spec (base : Nat) (hb : 2 ≤ base) (skip : Bool) (mi : Option Nat)
    (stopAt : Nat) :
    ∀ fuel n st, stopAt + 1 ≤ n + fuel → n + 1 ≤ st.nextNumber →
      (∀ x ∈ (threadLoopGo base skip mi stopAt fuel n st).dropLast, x < stopAt)
      ∧ (∀ L, (threadLoopGo base skip mi stopAt fuel n st).getLast? = some L → stopAt ≤ L)
      ∧ (n < stopAt → threadLoopGo base skip mi stopAt fuel n st ≠ []) := by
  intro fuel
  induction fuel with
  | zero =>
    intro n st hf hst
    exact ⟨by simp [threadLoopGo], by simp [threadLoopGo], fun h => absurd h (by omega)⟩
  | succ f ih =>
    intro n st hf hst
    by_cases hn : n < stopAt
    · rw [threadLoopGo, if_pos hn]
      obtain ⟨hge, hnext⟩ := getNextNumber_spec base hb skip mi st
      obtain ⟨i, hi⟩ : ∃ i, (getNextNumber base skip mi st).1 = i := ⟨_, rfl⟩
      rw [hi] at hge hnext
      rw [hi]
      have hInext : i + 1 ≤ (getNextNumber base skip mi st).2.nextNumber := by omega
      obtain ⟨ihdrop, ihlast, ihne⟩ := ih i (getNextNumber base skip mi st).2
        (by omega) hInext
      cases hrest : threadLoopGo base skip mi stopAt f i (getNextNumber base skip mi st).2 with
      | nil =>
        have histop : stopAt ≤ i := by
          by_contra hc
          exact absurd hrest (ihne (by omega))
        refine ⟨by simp, ?_, by simp⟩
        intro L hL
        rw [List.getLast?_singleton] at hL
        cases hL
        exact histop
      | cons r rs =>
        have hlti : i < stopAt := by
          by_contra hc
          rw [threadLoopGo_nil base skip mi stopAt f i _ (by omega)] at hrest
          cases hrest
        rw [hrest] at ihdrop ihlast
        refine ⟨?_, ?_, by simp⟩
        · rw [List.dropLast_cons₂]
          intro x hx
          rcases List.mem_cons.mp hx with h | h
          · omega
          · exact ihdrop x h
        · intro L hL
          rw [List.getLast?_cons_cons] at hL
          exact ihlast L hL
    · rw [threadLoopGo, if_neg hn]
      exact ⟨by simp, by simp, fun h => absurd h hn⟩

/-- The worker loop classifies in-bound numbers plus exactly one final
number at or beyond `stopAt` (when `stopAt > 0`): every classified number
except the last is below `stopAt`, the last classified number is at or
beyond `stopAt`, and when `stopAt > 0` at least one number is classified. -/
theorem threadLoopRun_spec (base : Nat) (hb : 2 ≤ base) (skip : Bool) (mi : Option Nat)
    (stopAt : Nat) :
    (∀ x ∈ (threadLoopRun base skip mi stopAt).dropLast, x < stopAt)
    ∧ (∀ L, (threadLoopRun base skip mi stopAt).getLast? = some L → stopAt ≤ L)
    ∧ (0 < stopAt → threadLoopRun base skip mi stopAt ≠ []) := by
  have h := threadLoopGo_spec base hb skip mi stopAt (stopAt + 2) 0 initCursor
    (by omega) (by rw [initCursor])
  exact h


/-! Claim theorems. -/

/-- C1: for every `n ≥ 1` in base 10 a call to `isHappy(n)` terminates —
some fuel makes the embedded recursion return — from any cache state, for
every combination of the `cacheResults` and `skipPermutations` settings,
including when each iterate is first canonicalized by `sortDigits`. -/
theorem isHappy_terminates (c s : Bool) (cache : Cache) (n : Nat) (hn : 1 ≤ n) :
    ∃ fuel p, isHappyFuel ⟨c, s, 10⟩ fuel cache n = some p :=
  isHappy_terminates_aux c s cache n hn

/-- Witness for C1 at `n = 19` with both settings on and the seeded cache. -/
theorem isHappy_terminates_witness :
    1 ≤ 19 ∧ ∃ fuel p, isHappyFuel ⟨true, true, 10⟩ fuel (initCache true) 19 = some p :=
  ⟨by decide, isHappy_terminates true true (initCache true) 19 (by decide)⟩

/-- C2: in base 10, `isHappy` returns true for 1, 7 and 19 and false for
4, 2 and 89, for every combination of the `cacheResults` and
`skipPermutations` settings. -/
theorem isHappy_known_values (c s : Bool) :
    engineReturns c s 10 1 true ∧ engineReturns c s 10 7 true
    ∧ engineReturns c s 10 19 true ∧ engineReturns c s 10 4 false
    ∧ engineReturns c s 10 2 false ∧ engineReturns c s 10 89 false := by
  cases c <;> cases s <;>
    exact ⟨⟨32, _, rfl⟩, ⟨32, _, rfl⟩, ⟨32, _, rfl⟩, ⟨32, _, rfl⟩, ⟨32, _, rfl⟩,
      ⟨32, _, rfl⟩⟩

/-- C3: for every `n` and base ≥ 2, canonicalization preserves the sum of
squared digits and its output always passes `areDigitsSorted`. -/
theorem sortDigits_canonicalization (base n : Nat) (hb : 2 ≤ base) :
    sumOfDigitSquares base (sortDigits base n) = sumOfDigitSquares base n
    ∧ areDigitsSorted base (sortDigits base n) = true :=
  ⟨sumOfDigitSquares_sortDigits base n hb, areDigitsSorted_sortDigits base n hb⟩

/-- Witness for C3 at base 10, `n = 321`. -/
theorem sortDigits_canonicalization_witness :
    2 ≤ 10 ∧ (sumOfDigitSquares 10 (sortDigits 10 321) = sumOfDigitSquares 10 321
      ∧ areDigitsSorted 10 (sortDigits 10 321) = true) :=
  ⟨by decide, sortDigits_canonicalization 10 321 (by decide)⟩

/-- C4 counterexample: `sortDigits 10 10 = 1`, so the result has one digit
while 10 has two — the digit 0 is dropped, and the digit multiset is
`{1}`, not `{0, 1}`: `sortDigits` is not a rearrangement of all of `n`'s
digits. -/
theorem sortDigits_drops_zeros :
    sortDigits 10 10 = 1
    ∧ (digitsList 10 (sortDigits 10 10)).length = 1
    ∧ (digitsList 10 10).length = 2
    ∧ ¬ ((digitsList 10 (sortDigits 10 10) : Multiset Nat)
          = (digitsList 10 10 : Multiset Nat)) := by
  decide

/-- C4 amended: for every `n` and base ≥ 2, `sortDigits` rearranges
exactly the multiset of the NONZERO digits of `n`; every occurrence of the
digit 0 is dropped rather than kept. -/
theorem sortDigits_digit_multiset (base n : Nat) (hb : 2 ≤ base) :
    (digitsList base (sortDigits base n) : Multiset Nat)
      = ((digitsList base n).filter (fun d => d != 0) : Multiset Nat) := by
  rw [digitsList_eq_digits base hb, digitsList_eq_digits base hb, digits_sortDigits base n hb]
  exact Multiset.coe_eq_coe.mpr (sortedDigitsOf_perm base n hb)

/-- Witness for the amended C4 at base 10, `n = 10`. -/
theorem sortDigits_digit_multiset_witness :
    2 ≤ 10 ∧ (digitsList 10 (sortDigits 10 10) : Multiset Nat)
      = ((digitsList 10 10).filter (fun d => d != 0) : Multiset Nat) :=
  ⟨by decide, sortDigits_digit_multiset 10 10 (by decide)⟩

/-- C5: with `skipPermutations` enabled, the numbers returned by repeated
`getNextNumber` calls from the initial cursor state, truncated at any
bound `B` (after enough calls to pass `B`), are exactly the numbers of
`[1, B)` whose digits pass `areDigitsSorted`, in strictly increasing order
with no repeats and no omissions. -/
theorem cursor_skip_exhaustive (base B k : Nat) (hb : 2 ≤ base)
    (hk : (sortedUpTo base B).length ≤ k) :
    ((runCursor base true none k initCursor).1.filter fun x => decide (x < B))
      = sortedUpTo base B
    ∧ List.Pairwise (fun a b => a < b) (runCursor base true none k initCursor).1 :=
  ⟨runCursor_skip_truncate base hb B k hk, runCursor_skip_pairwise base hb k⟩

/-- Witness for C5 at base 10, bound 13, 11 calls. -/
theorem cursor_skip_exhaustive_witness :
    2 ≤ 10 ∧ (sortedUpTo 10 13).length ≤ 11
    ∧ (((runCursor 10 true none 11 initCursor).1.filter fun x => decide (x < 13))
        = sortedUpTo 10 13
      ∧ List.Pairwise (fun a b => a < b) (runCursor 10 true none 11 initCursor).1) :=
  ⟨by decide, by decide, cursor_skip_exhaustive 10 13 11 (by decide) (by decide)⟩

/-- C6 counterexample: with milestone interval `M = 2`, after the cursor
has handed out all numbers in `[1, 3)` (two pulls, no skipping), no
milestone has fired, although the claim predicts `⌊(3-1)/2⌋ = 1` — the
boundary `2` is only announced when a number exceeding
`lastMilestone + 2`, namely `3`, is handed out. -/
theorem milestone_count_claim_false :
    (runCursor 10 false (some 2) 2 initCursor).2.milestoneLog.length = 0
    ∧ (3 - 1) / 2 = 1 := by
  constructor
  · decide
  · decide

/-- C6 amended: for milestone interval `M ≥ 1` and bound `B ≥ 1`, after
the cursor has handed out all numbers in `[1, B)` (no skipping), exactly
`⌊(B-2)/M⌋` milestones have fired — the boundary `kM` fires when the
number `kM + 1` is handed out — at the boundaries `M, 2M, …`, each
announced exactly once and in increasing order. -/
theorem milestone_count (base B M : Nat) (hbase : 1 ≤ base) (hM : 1 ≤ M) (hB : 1 ≤ B) :
    (runCursor base false (some M) (B - 1) initCursor).1 = List.range' 1 (B - 1)
    ∧ (runCursor base false (some M) (B - 1) initCursor).2.milestoneLog
        = (List.range ((B - 2) / M)).map (fun j => M * (j + 1))
    ∧ (runCursor base false (some M) (B - 1) initCursor).2.milestoneLog.length
        = (B - 2) / M := by
  have h := runCursor_milestones base hbase M hM (B - 1)
  rw [h]
  have h2 : B - 1 - 1 = B - 2 := by omega
  rw [h2]
  exact ⟨rfl, rfl, by simp⟩

/-- Witness for the amended C6 at base 10, `B = 6`, `M = 2`: the log is
`[2, 4]`. -/
theorem milestone_count_witness :
    1 ≤ 10 ∧ 1 ≤ 2 ∧ 1 ≤ 6
    ∧ ((runCursor 10 false (some 2) (6 - 1) initCursor).1 = List.range' 1 (6 - 1)
      ∧ (runCursor 10 false (some 2) (6 - 1) initCursor).2.milestoneLog
          = (List.range ((6 - 2) / 2)).map (fun j => 2 * (j + 1))
      ∧ (runCursor 10 false (some 2) (6 - 1) initCursor).2.milestoneLog.length
          = (6 - 2) / 2) :=
  ⟨by decide, by decide, by decide, milestone_count 10 6 2 (by decide) (by decide) (by decide)⟩

/-- C7 counterexample: with `stopAt = 1` the worker pulls the number 1 and
classifies it even though `1 ≥ stopAt`; the loop tests `n < stopAt` only
before the next pull, so the first number at or beyond `stopAt` is still
classified. -/
theorem threadLoop_claim_false :
    threadLoopRun 10 false none 1 = [1]
    ∧ ¬ (∀ x ∈ threadLoopRun 10 false none 1, x < 1) := by
  constructor
  · decide
  · decide

/-- C7 amended: every number the worker loop classifies, except the final
one, is below `stopAt`; the final classified number — present whenever
`stopAt > 0` — is the first pulled number at or beyond `stopAt`, and it is
classified before the loop stops (matching the code comment that `stopAt`
is the highest number calculated). -/
theorem threadLoop_stopAt (base stopAt : Nat) (skip : Bool) (mi : Option Nat)
    (hb : 2 ≤ base) :
    (∀ x ∈ (threadLoopRun base skip mi stopAt).dropLast, x < stopAt)
    ∧ (∀ L, (threadLoopRun base skip mi stopAt).getLast? = some L → stopAt ≤ L)
    ∧ (0 < stopAt → threadLoopRun base skip mi stopAt ≠ []) :=
  threadLoopRun_spec base hb skip mi stopAt

/-- Witness for the amended C7 at base 10, `stopAt = 3`, skipping on. -/
theorem threadLoop_stopAt_witness :
    2 ≤ 10 ∧ ((∀ x ∈ (threadLoopRun 10 true none 3).dropLast, x < 3)
      ∧ (∀ L, (threadLoopRun 10 true none 3).getLast? = some L → 3 ≤ L)
      ∧ (0 < 3 → threadLoopRun 10 true none 3 ≠ [])) :=
  ⟨by decide, threadLoop_stopAt 10 3 true none (by decide)⟩

/-- C8: with caching enabled, a key present in the cache keeps its value
across any subsequent sequence of classification calls, and after a
classification call for `n ≥ 1` returns, a lookup of `n` — immediately or
after any further calls — finds an entry equal to the returned result.
The cache is assumed reachable: valid and holding the two constructor
seeds, which holds for the constructor cache and is preserved by every
call. -/
theorem cache_stable_and_correct (cfg : Config) (hcr : cfg.cacheResults = true)
    (cache : Cache) (hv : validCache cfg.skipPermutations cfg.base cache)
    (h1 : cache.lookup 1 = some true) (h4 : cache.lookup 4 = some false) :
    (∀ reqs m v, cache.lookup m = some v → (runCalls cfg reqs cache).lookup m = some v)
    ∧ (∀ fuel n b cache2, isHappyFuel cfg fuel cache n = some (b, cache2) → 1 ≤ n →
        cache2.lookup n = some b
        ∧ ∀ reqs, (runCalls cfg reqs cache2).lookup n = some b) := by
  refine ⟨fun reqs m v hm => runCalls_stable cfg reqs cache m v hm, ?_⟩
  intro fuel n b cache2 hcall _
  have hafter := isHappyFuel_lookup_after cfg hcr hcall hv h1 h4
  exact ⟨hafter, fun reqs => runCalls_stable cfg reqs cache2 n b hafter⟩

/-- Witness for C8: classifying 2 with both settings on from the seeded
cache stores `2 ↦ false`, and the lookup finds it. -/
theorem cache_stable_and_correct_witness :
    ([((2 : Nat), false), (1, true), (4, false)] : Cache).lookup 2 = some false := by
  have h := cache_stable_and_correct ⟨true, true, 10⟩ rfl (initCache true)
    (initCache_valid true true 10) (by rfl) (by rfl)
  exact (h.2 4 2 false [(2, false), (1, true), (4, false)] (by rfl) (by decide)).1

/-- C9: for every `n ≥ 1` in base 10 the boolean returned by `isHappy(n)`
is the same across all four combinations of `cacheResults` and
`skipPermutations` — the optimizations never change a result. -/
theorem isHappy_flag_independent (n : Nat) (hn : 1 ≤ n) (c1 s1 c2 s2 b1 b2 : Bool)
    (h1 : engineReturns c1 s1 10 n b1) (h2 : engineReturns c2 s2 10 n b2) : b1 = b2 := by
  obtain ⟨f1, cc1, h1⟩ := h1
  obtain ⟨f2, cc2, h2⟩ := h2
  have hp1 : pureResult s1 10 n b1 :=
    (isHappyFuel_sound ⟨c1, s1, 10⟩ f1 (initCache c1) n b1 cc1 h1
      (initCache_valid c1 s1 10)).1
  have hp2 : pureResult s2 10 n b2 :=
    (isHappyFuel_sound ⟨c2, s2, 10⟩ f2 (initCache c2) n b2 cc2 h2
      (initCache_valid c2 s2 10)).1
  obtain ⟨pf1, pc1, hpf1⟩ := hp1
  obtain ⟨pf2, pc2, hpf2⟩ := hp2
  have hg1 := pureResult_groundHappy s1 pf1 n b1 pc1 hn hpf1
  have hg2 := pureResult_groundHappy s2 pf2 n b2 pc2 hn hpf2
  have hiff := hg1.trans hg2.symm
  cases b1 <;> cases b2 <;> simp_all

/-- Witness for C9 at `n = 7`: caching+skipping on versus both off give
the same answer. -/
theorem isHappy_flag_independent_witness :
    engineReturns true true 10 7 true ∧ engineReturns false false 10 7 true
    ∧ (true : Bool) = true :=
  ⟨⟨32, _, rfl⟩, ⟨32, _, rfl⟩,
    isHappy_flag_independent 7 (by decide) true true false false true true
      ⟨32, _, rfl⟩ ⟨32, _, rfl⟩⟩

/-- C10: for every `n` and base ≥ 2, `sortDigits(n) ≤ n`, as the code
comment promises: the result arranges a sub-multiset of `n`'s digits with
the small digits at the high positional weights, which is minimal. -/
theorem sortDigits_le_self (base n : Nat) (hb : 2 ≤ base) : sortDigits base n ≤ n :=
  sortDigits_le base n hb

/-- Witness for C10 at base 10, `n = 920`: `sortDigits 10 920 = 29`. -/
theorem sortDigits_le_self_witness : 2 ≤ 10 ∧ sortDigits 10 920 ≤ 920 :=
  ⟨by decide, sortDigits_le_self 10 920 (by decide)⟩

end Hn
